import Mathlib

/-!
Verification of the easypem PEM envelope codec.

The development shallow-embeds the crate's data model and its two entry
points: the serializer (the Display impl for PemMessage in src/lib.rs
together with the Display impls in src/headers.rs) and the parser
(pem_parser in src/parser.rs together with the from_pair functions in
src/headers.rs).  Strings are modelled as lists of characters and byte
vectors as lists of natural numbers below 256.  The pest grammar files
(pem.pest, headers.pest) are not part of the sources; wherever the
behaviour depends on them the corresponding definition is modelled from
the specification and marked as such in its doc comment.
-/

namespace EasyPem

/-! ### Base64 codec (model of the base64 crate as configured in src/parser.rs:
standard alphabet, padding, decode_allow_trailing_bits(true)) -/

/-- The standard base64 alphabet. -/
def b64chars : List Char :=
  "ABCDEFGHIJKLMNOPQRSTUVWXYZabcdefghijklmnopqrstuvwxyz0123456789+/".data

/-- Character for a 6-bit value. -/
def b64c (n : Nat) : Char := b64chars.getD n 'A'

/-- Index of a character in a character list. -/
def chIdx : List Char → Char → Nat → Option Nat
  | [], _, _ => none
  | x :: xs, c, i => if x = c then some i else chIdx xs c (i + 1)

/-- 6-bit value of a base64 character, if valid. -/
def b64val (c : Char) : Option Nat := chIdx b64chars c 0

/-- Base64 encoding with `=` padding, as performed by `base64::encode`
(standard alphabet, padded), operating on bytes. -/
def base64Encode : List Nat → List Char
  | [] => []
  | [a] => [b64c (a / 4), b64c (a % 4 * 16), '=', '=']
  | [a, b] => [b64c (a / 4), b64c (a % 4 * 16 + b / 16), b64c (b % 16 * 4), '=']
  | a :: b :: c :: rest =>
      b64c (a / 4) :: b64c (a % 4 * 16 + b / 16) :: b64c (b % 16 * 4 + c / 64) ::
        b64c (c % 64) :: base64Encode rest

/-- Remove the trailing run of `=` padding characters. -/
def stripPad (l : List Char) : List Char :=
  (l.reverse.dropWhile (fun c => c = '=')).reverse

/-- Map every character to its 6-bit value; `none` if any is invalid. -/
def valsOf : List Char → Option (List Nat)
  | [] => some []
  | c :: r =>
    match b64val c, valsOf r with
    | some v, some vs => some (v :: vs)
    | _, _ => none

/-- Reassemble bytes from 6-bit values.  The final partial group never
checks the unused low bits of its last symbol: this models
`decode_allow_trailing_bits(true)` (extra bits are masked and ignored). -/
def b64groups : List Nat → Except (List Char) (List Nat)
  | [] => .ok []
  | [_] => .error "Encoded text cannot have a 6-bit remainder.".data
  | [a, b] => .ok [a * 4 + b / 16]
  | [a, b, c] => .ok [a * 4 + b / 16, b % 16 * 16 + c / 4]
  | a :: b :: c :: d :: rest =>
    match b64groups rest with
    | .ok bs => .ok ((a * 4 + b / 16) :: (b % 16 * 16 + c / 4) :: (c % 4 * 64 + d) :: bs)
    | .error e => .error e

/-- Base64 decoding with the RFC1421 configuration of src/parser.rs:
standard alphabet, trailing `=` padding accepted, trailing bits of the
last symbol tolerated. -/
def base64Decode (l : List Char) : Except (List Char) (List Nat) :=
  let t := stripPad l
  if t.any (fun c => c = '=') then .error "Invalid byte.".data
  else
    match valsOf t with
    | none => .error "Invalid byte.".data
    | some vs => b64groups vs

/-! ### Hex codec (model of the hex crate used by DEK-Info in src/headers.rs) -/

/-- Upper-case hexadecimal digits. -/
def hexCharsU : List Char := "0123456789ABCDEF".data

/-- Upper-case hexadecimal digit of a 4-bit value. -/
def hexc (n : Nat) : Char := hexCharsU.getD n '0'

/-- `hex::encode_upper` on bytes. -/
def hexEncodeUpper : List Nat → List Char
  | [] => []
  | b :: r => hexc (b / 16) :: hexc (b % 16) :: hexEncodeUpper r

/-- Value of one hexadecimal digit (either case), if valid. -/
def hexVal (c : Char) : Option Nat :=
  if '0' ≤ c ∧ c ≤ '9' then some (c.toNat - 48)
  else if 'a' ≤ c ∧ c ≤ 'f' then some (c.toNat - 87)
  else if 'A' ≤ c ∧ c ≤ 'F' then some (c.toNat - 55)
  else none

/-- `hex::decode`: an even run of hex digits to bytes; an odd length or an
invalid digit is an error value. -/
def hexDecode : List Char → Except (List Char) (List Nat)
  | [] => .ok []
  | [_] => .error "Odd number of digits".data
  | c1 :: c2 :: r =>
    match hexVal c1, hexVal c2, hexDecode r with
    | some hi, some lo, .ok rest => .ok ((hi * 16 + lo) :: rest)
    | some _, some _, .error e => .error e
    | _, _, _ => .error "Invalid character".data

/-! ### Decimal rendering and parsing of unsigned integers -/

/-- Decimal digit character. -/
def digitChar (n : Nat) : Char := hexCharsU.getD n '0'

/-- Fuelled decimal rendering. -/
def natDigitsF : Nat → Nat → List Char
  | 0, _ => []
  | f + 1, n => if n < 10 then [digitChar n] else natDigitsF f (n / 10) ++ [digitChar (n % 10)]

/-- Decimal rendering of a natural number, as Display for u32 prints it. -/
def natRender (n : Nat) : List Char := natDigitsF (n + 1) n

/-- Is this character a decimal digit? -/
def isDigit (c : Char) : Bool := decide ('0' ≤ c ∧ c ≤ '9')

/-- Numeric value of a run of decimal digits. -/
def digitsToNat (l : List Char) : Nat := l.foldl (fun a c => a * 10 + (c.toNat - 48)) 0

/-! ### Data model (src/headers.rs, src/lib.rs) -/

/-- Enumerations for different PEM type (`ProcTypeSpecifier` in src/headers.rs). -/
inductive ProcTypeSpecifier
  | ENCRYPTED
  | MIC_ONLY
  | MIC_CLEAR
  | CRL
deriving DecidableEq, Repr

/-- `Proc-Type` header field (`ProcType(pub u32, pub ProcTypeSpecifier)`).
The u32 is modelled as a natural number; parsing enforces the u32 bound. -/
structure ProcType where
  version : Nat
  specifier : ProcTypeSpecifier
deriving DecidableEq, Repr

/-- `DEK-Info` header field (`DEKInfo` in src/headers.rs). -/
structure DEKInfo where
  algorithm : List Char
  parameter : List Nat
deriving DecidableEq, Repr

/-- Standard PEM header block (`PemHeader` in src/headers.rs).  The
`ContentDomain` newtype around String is flattened to the string itself. -/
structure PemHeader where
  proc_type : Option ProcType := none
  content_domain : Option (List Char) := none
  dek_info : Option DEKInfo := none
deriving DecidableEq, Repr

instance : Inhabited PemHeader := ⟨{}⟩

/-- `PemHeader::is_empty`: true exactly when `proc_type` is `None`. -/
def PemHeader.is_empty (h : PemHeader) : Bool := h.proc_type.isNone

/-- PEM message (`PemMessage` in src/lib.rs). -/
structure PemMessage where
  label : List Char
  headers : PemHeader
  content : List Nat
deriving DecidableEq, Repr

/-! ### Rendering (Display impls in src/headers.rs and src/lib.rs) -/

/-- Display for `ProcTypeSpecifier`. -/
def ProcTypeSpecifier.render : ProcTypeSpecifier → List Char
  | .ENCRYPTED => "ENCRYPTED".data
  | .MIC_ONLY => "MIC-ONLY".data
  | .MIC_CLEAR => "MIC-CLEAR".data
  | .CRL => "CRL".data

/-- Display for `ProcType`: one line `Proc-Type: version,specifier`. -/
def ProcType.render (p : ProcType) : List Char :=
  "Proc-Type: ".data ++ natRender p.version ++ [','] ++ p.specifier.render

/-- Display for `ContentDomain`: one line `Content-Domain: value`. -/
def contentDomainRender (d : List Char) : List Char := "Content-Domain: ".data ++ d

/-- Display for `DEKInfo`: `DEK-Info: algorithm` when the parameter is
empty, else `DEK-Info: algorithm,HEX`. -/
def DEKInfo.render (d : DEKInfo) : List Char :=
  if d.parameter = [] then "DEK-Info: ".data ++ d.algorithm
  else "DEK-Info: ".data ++ d.algorithm ++ [','] ++ hexEncodeUpper d.parameter

/-- The physical header lines emitted by Display for `PemHeader`: nothing
at all when `proc_type` is absent, else `Proc-Type` first, then
`Content-Domain` if present, then `DEK-Info` if present. -/
def PemHeader.renderLines (h : PemHeader) : List (List Char) :=
  match h.proc_type with
  | none => []
  | some pt =>
    pt.render :: ((h.content_domain.map contentDomainRender).toList ++
      (h.dek_info.map DEKInfo.render).toList)

/-- Display for `PemHeader`: each rendered line terminated by a newline. -/
def PemHeader.render (h : PemHeader) : List Char :=
  h.renderLines.flatMap (fun l => l ++ ['\n'])

/-- Fuelled chunking of a list into pieces of 64, as `slice::chunks(64)`. -/
def chunksF : Nat → List Char → List (List Char)
  | _, [] => []
  | 0, l => [l]
  | f + 1, l => l.take 64 :: chunksF f (l.drop 64)

/-- `slice::chunks(64)`: split into pieces of 64 characters, the last one
possibly shorter, an empty list giving no chunks. -/
def chunks64 (l : List Char) : List (List Char) := chunksF l.length l

/-- The base64 body region of a message: the encoding of the content
split at 64 columns, each line newline-terminated (src/lib.rs). -/
def bodyText (content : List Nat) : List Char :=
  (chunks64 (base64Encode content)).flatMap (fun l => l ++ ['\n'])

/-- Display for `PemMessage` (src/lib.rs): fails exactly on an empty
label, else BEGIN line, header text, a blank separator line when the
header block is non-empty, the wrapped base64 body, and the END line. -/
def PemMessage.render (m : PemMessage) : Except Unit (List Char) :=
  if m.label = [] then .error ()
  else .ok ("-----BEGIN ".data ++ m.label ++ "-----".data ++ ['\n'] ++
    m.headers.render ++
    (if m.headers.is_empty then [] else ['\n']) ++
    bodyText m.content ++
    "-----END ".data ++ m.label ++ "-----".data)

/-! ### Parsing (src/parser.rs, src/headers.rs; grammar modelled from the spec) -/

/-- A positioned parse error: the message together with the text slice
covered by the pest span it is anchored to. -/
structure PemErr where
  message : List Char
  span : List Char
deriving DecidableEq, Repr

/-- Is this character ASCII whitespace?  Models `char::is_whitespace`
restricted to the ASCII range. -/
def isWs (c : Char) : Bool := c = ' ' ∨ c = '\t' ∨ c = '\r' ∨ c = '\n'

/-- `str::trim`: strip leading and trailing whitespace. -/
def trim (l : List Char) : List Char :=
  ((l.dropWhile isWs).reverse.dropWhile isWs).reverse

/-- Is the first list a prefix of the second?  (A structural variant of
`List.isPrefixOf` that reduces when only the spine of the second list is
known.) -/
def isPre : List Char → List Char → Bool
  | [], _ => true
  | _ :: _, [] => false
  | a :: as, b :: bs => if a = b then isPre as bs else false

/-- Split a character list at newline characters, accumulator form. -/
def splitLinesAux : List Char → List Char → List (List Char)
  | [], acc => [acc.reverse]
  | c :: rest, acc =>
    if c = '\n' then acc.reverse :: splitLinesAux rest []
    else splitLinesAux rest (c :: acc)

/-- Split a character list into its physical lines. -/
def splitLines (l : List Char) : List (List Char) := splitLinesAux l []

/-- Split at the first occurrence of five consecutive dashes, PEG-style:
the prefix before the first position where `-----` matches, and the rest
after those five dashes. -/
def splitAtDashes : List Char → Option (List Char × List Char)
  | [] => none
  | c :: rest =>
    if isPre "-----".data (c :: rest) then some ([], (c :: rest).drop 5)
    else
      match splitAtDashes rest with
      | some (a, b) => some (c :: a, b)
      | none => none

/-- Split at the first comma: the part before it and the part after it. -/
def splitAtComma : List Char → Option (List Char × List Char)
  | [] => none
  | c :: rest =>
    if c = ',' then some ([], rest)
    else
      match splitAtComma rest with
      | some (a, b) => some (c :: a, b)
      | none => none

/-- Modelled from the spec: the `pem.pest` grammar file is absent, so the
BEGIN encapsulation boundary is modelled after section 4.1: the line is
`-----BEGIN <label>-----` where the label is the (non-empty) run of
characters up to the first five-dash sequence, which must end the line. -/
def parseBeginLine (line : List Char) : Except PemErr (List Char) :=
  if isPre "-----BEGIN ".data line then
    match splitAtDashes (line.drop 11) with
    | some (lab, []) =>
      if lab = [] then .error ⟨"Invalid PEM encapsulation boundary".data, line⟩
      else .ok lab
    | _ => .error ⟨"Invalid PEM encapsulation boundary".data, line⟩
  else .error ⟨"Invalid PEM encapsulation boundary".data, line⟩

/-- The END encapsulation boundary matching a label. -/
def endLineOf (label : List Char) : List Char :=
  "-----END ".data ++ label ++ "-----".data

/-- The header field names recognized by the `headers.pest` grammar:
the three decoded fields and the extended fields consumed as
`unsupported_hdr` (src/headers.rs `PemHeader::from_pair`). -/
def extendedNames : List (List Char) :=
  ["Originator-ID-Asymmetric".data, "Originator-ID-Symmetric".data,
   "Originator-Certificate".data, "Key-Info".data, "Issuer-Certificate".data,
   "MIC-Info".data, "Recipient-ID-Asymmetric".data, "Recipient-ID-Symmetric".data,
   "Recipient-Certificate".data]

/-- Does the line begin a recognized header entry (`<Name>:`)? -/
def isHeaderStart (line : List Char) : Bool :=
  (("Proc-Type".data :: "Content-Domain".data :: "DEK-Info".data :: extendedNames)).any
    (fun n => isPre (n ++ [':']) line)

/-- Is this physical line an RFC-822 continuation line (begins with
whitespace)? -/
def isCont : List Char → Bool
  | [] => false
  | c :: _ => c = ' ' ∨ c = '\t'

/-- Unfold continuation lines into the current logical value: the first
physical line is kept as-is, each continuation line is trimmed before
appending (spec section 4.2). -/
def unfoldAux : List (List Char) → List Char → List (List Char)
  | [], cur => [cur]
  | l :: rest, cur =>
    if isCont l then unfoldAux rest (cur ++ trim l)
    else cur :: unfoldAux rest l

/-- Unfold a header region into its logical header entries. -/
def unfoldLines : List (List Char) → List (List Char)
  | [] => []
  | l :: rest => unfoldAux rest l

/-- Strip one leading space of a header field body, the separator the
grammar places after the colon. -/
def dropOneSpace : List Char → List Char
  | [] => []
  | c :: r => if c = ' ' then r else c :: r

/-- `FromStr for ProcTypeSpecifier` (src/headers.rs): exactly the four
literal tokens are accepted. -/
def parseSpecifier (s : List Char) : Option ProcTypeSpecifier :=
  if s = "ENCRYPTED".data then some .ENCRYPTED
  else if s = "MIC-ONLY".data then some .MIC_ONLY
  else if s = "MIC-CLEAR".data then some .MIC_CLEAR
  else if s = "CRL".data then some .CRL
  else none

/-- Semantic action of `ProcType::from_pair` (src/headers.rs): the body is
`<version>,<specifier>`; the version must be a run of decimal digits that
fits in a u32, the specifier one of the four literal tokens. -/
def parseProcTypeBody (line body : List Char) : Except PemErr ProcType :=
  match splitAtComma body with
  | none => .error ⟨"Invalid Proc-Type field".data, line⟩
  | some (vtok, stok) =>
    if vtok ≠ [] ∧ vtok.all isDigit then
      if digitsToNat vtok < 4294967296 then
        match parseSpecifier stok with
        | some sp => .ok ⟨digitsToNat vtok, sp⟩
        | none => .error ⟨"Invalid Proc-Type specifier".data, stok⟩
      else .error ⟨"number too large to fit in target type".data, vtok⟩
    else .error ⟨"Invalid Proc-Type field".data, line⟩

/-- Semantic action of `DEKInfo::from_pair` (src/headers.rs): the body is
`<algorithm>[,<hex-parameter>]`; an absent or empty hex part gives an
empty parameter, a hex decode failure is an error anchored to the hex
token. -/
def parseDekInfoBody (body : List Char) : Except PemErr DEKInfo :=
  match splitAtComma body with
  | none =>
    match hexDecode [] with
    | .ok p => .ok ⟨body, p⟩
    | .error e => .error ⟨e, []⟩
  | some (alg, hx) =>
    match hexDecode hx with
    | .ok p => .ok ⟨alg, p⟩
    | .error e => .error ⟨e, hx⟩

/-- Dispatch of one logical header entry by field name, updating the
header block under construction (`PemHeader::from_pair` in
src/headers.rs; the entry shapes are modelled from the spec since
`headers.pest` is absent).  Extended entries are consumed and skipped;
an unrecognized name is a fatal error. -/
def parseEntry (l : List Char) (h : PemHeader) : Except PemErr PemHeader :=
  if isPre "Proc-Type:".data l then
    match parseProcTypeBody l (dropOneSpace (l.drop 10)) with
    | .ok pt => .ok { h with proc_type := some pt }
    | .error e => .error e
  else if isPre "Content-Domain:".data l then
    .ok { h with content_domain := some (dropOneSpace (l.drop 15)) }
  else if isPre "DEK-Info:".data l then
    match parseDekInfoBody (dropOneSpace (l.drop 9)) with
    | .ok d => .ok { h with dek_info := some d }
    | .error e => .error e
  else if extendedNames.any (fun n => isPre (n ++ [':']) l) then .ok h
  else .error ⟨"Unknown header entry".data, l⟩

/-- Fold all logical header entries into a header block. -/
def foldEntries : List (List Char) → PemHeader → Except PemErr PemHeader
  | [], h => .ok h
  | l :: rest, h =>
    match parseEntry l h with
    | .ok h2 => foldEntries rest h2
    | .error e => .error e

/-- Modelled from the spec: the `headers.pest` grammar file is absent, so
the header region parse follows section 4.2: unfold continuation lines,
require `Proc-Type` to be the first entry, then fold every entry. -/
def parseHeaders (ls : List (List Char)) : Except PemErr PemHeader :=
  match unfoldLines ls with
  | [] => .ok {}
  | first :: rest =>
    if isPre "Proc-Type:".data first then foldEntries (first :: rest) {}
    else .error ⟨"Proc-Type must be the first header entry".data, first⟩

/-- Split the header region from the content region at the first blank
line. -/
def splitAtBlank : List (List Char) → Option (List (List Char) × List (List Char))
  | [] => none
  | [] :: rest => some ([], rest)
  | l :: rest =>
    match splitAtBlank rest with
    | some (a, b) => some (l :: a, b)
    | none => none

/-- The raw text of the content region, as the pest span of
`Rule::content` covers it. -/
def contentSpan (ls : List (List Char)) : List Char :=
  ls.flatMap (fun l => l ++ ['\n'])

/-- The `Rule::content` arm of `pem_parser` (src/parser.rs): each content
line is trimmed, the lines are concatenated and base64-decoded; a decode
failure is an error whose span is the content region. -/
def decodeContent (ls : List (List Char)) : Except PemErr (List Nat) :=
  match base64Decode ((ls.map trim).flatten) with
  | .ok bs => .ok bs
  | .error e => .error ⟨e, contentSpan ls⟩

/-- Modelled from the spec: split the region between the encapsulation
boundaries into an optional header block (present when the first line
starts a recognized header entry, terminated by a blank line) and the
content region (section 4.1). -/
def splitHeaderContent (middle : List (List Char)) :
    Except PemErr (List (List Char) × List (List Char)) :=
  match middle with
  | [] => .ok ([], [])
  | first :: _ =>
    if isHeaderStart first then
      match splitAtBlank middle with
      | some (hdr, content) => .ok (hdr, content)
      | none => .error ⟨"Missing blank line after headers".data, first⟩
    else .ok ([], middle)

/-- A trailing newline in the input leaves one final empty line after
splitting; the envelope grammar consumes it silently. -/
def dropTrailingBlank (ls : List (List Char)) : List (List Char) :=
  if ls.getLast? = some [] then ls.dropLast else ls

/-- The region between the encapsulation boundaries: parse the optional
header block, decode the content region, and assemble the message through
the builder (label as captured, headers defaulting to all-absent, content
to the decoded bytes). -/
def parseMiddle (label : List Char) (middle : List (List Char)) : Except PemErr PemMessage :=
  match splitHeaderContent middle with
  | .error e => .error e
  | .ok (hdrLines, contentLines) =>
    match (if hdrLines = [] then .ok {} else parseHeaders hdrLines :
        Except PemErr PemHeader) with
    | .error e => .error e
    | .ok hdr =>
      match decodeContent contentLines with
      | .error e => .error e
      | .ok content => .ok ⟨label, hdr, content⟩

/-- After the BEGIN boundary: the final line must be the END boundary of
the same label, and the lines in between form the middle region. -/
def parseAfterBegin (label : List Char) (rest : List (List Char)) : Except PemErr PemMessage :=
  match rest.getLast? with
  | none => .error ⟨"Missing PEM block".data, label⟩
  | some lastLine =>
    if lastLine = endLineOf label then parseMiddle label rest.dropLast
    else .error ⟨"Mismatched END encapsulation boundary".data, lastLine⟩

/-- The envelope stage of `pem_parser` (src/parser.rs), on the physical
lines of the input, with the envelope grammar modelled from spec section
4.1: locate the BEGIN and END boundaries (the label of the END line must
match), then process the middle region. -/
def parseEnvelope (ls : List (List Char)) : Except PemErr PemMessage :=
  match ls with
  | [] => .error ⟨"Missing PEM block".data, []⟩
  | first :: rest =>
    match parseBeginLine first with
    | .error e => .error e
    | .ok label => parseAfterBegin label rest

/-- `pem_parser` (src/parser.rs): split the input into physical lines,
drop a final empty line left by a trailing newline, and run the envelope
stage. -/
def parsePem (input : List Char) : Except PemErr PemMessage :=
  parseEnvelope (dropTrailingBlank (splitLines input))

/-- Decidable equality of results, so that concrete runs of the parser and
serializer can be checked by evaluation. -/
instance {α β : Type} [DecidableEq α] [DecidableEq β] : DecidableEq (Except α β)
  | .ok a, .ok b =>
    match decEq a b with
    | isTrue h => isTrue (h ▸ rfl)
    | isFalse h => isFalse fun hh => h (Except.ok.inj hh)
  | .error a, .error b =>
    match decEq a b with
    | isTrue h => isTrue (h ▸ rfl)
    | isFalse h => isFalse fun hh => h (Except.error.inj hh)
  | .ok _, .error _ => isFalse fun h => Except.noConfusion h
  | .error _, .ok _ => isFalse fun h => Except.noConfusion h

/-- A document whose header block holds a `Proc-Type` entry followed by
one extended header entry `name:body`, a blank separator, and one content
line; used to study how extended entries are consumed. -/
def extDoc (name body : List Char) : List Char :=
  "-----BEGIN A-----".data ++ '\n' ::
    ("Proc-Type: 4,MIC-ONLY".data ++ '\n' ::
      ((name ++ ':' :: body) ++ '\n' ::
        ([] ++ '\n' ::
          ("QUJD".data ++ '\n' :: "-----END A-----".data))))

/-- The newline-terminated physical lines of a rendered message, without
the final END line: the BEGIN line, the header lines, the blank separator
when the header block is non-empty, and the wrapped base64 body lines. -/
def msgLines (m : PemMessage) : List (List Char) :=
  ("-----BEGIN ".data ++ m.label ++ "-----".data) ::
    (m.headers.renderLines ++ (if m.headers.is_empty then [] else [[]]) ++
      chunks64 (base64Encode m.content))

/-! ### Supporting lemmas about chunking -/

/-- Chunking the empty list gives no chunks. -/
theorem chunksF_nil (f : Nat) : chunksF f [] = [] := by
  cases f <;> rfl

/-- A non-empty list produces at least one chunk. -/
theorem chunksF_ne_nil (f : Nat) (l : List Char) (h : l ≠ []) : chunksF f l ≠ [] := by
  cases f <;> cases l <;> simp_all [chunksF]

/-- Concatenating the chunks recovers the original list. -/
theorem chunksF_flatten (f : Nat) : ∀ l : List Char, (chunksF f l).flatten = l := by
  induction f with
  | zero => intro l; cases l <;> simp [chunksF]
  | succ f ih =>
    intro l
    cases l with
    | nil => simp [chunksF]
    | cons c r => simp [chunksF, ih]

/-- Characters of a chunk are characters of the chunked list. -/
theorem chunksF_subset (f : Nat) (l : List Char) (c : List Char) (hc : c ∈ chunksF f l) :
    ∀ x ∈ c, x ∈ l := by
  intro x hx
  rw [← chunksF_flatten f l]
  exact List.mem_flatten.mpr ⟨c, hc, hx⟩

/-- Every chunk except the last has exactly 64 characters. -/
theorem chunksF_dropLast_len (f : Nat) :
    ∀ l : List Char, l.length ≤ f → ∀ c ∈ (chunksF f l).dropLast, c.length = 64 := by
  induction f with
  | zero =>
    intro l hl c hc
    have : l = [] := List.length_eq_zero.mp (Nat.le_zero.mp hl)
    subst this
    simp [chunksF_nil] at hc
  | succ f ih =>
    intro l hl c hc
    cases l with
    | nil => simp [chunksF_nil] at hc
    | cons a r =>
      simp only [List.length_cons] at hl
      have hstep : chunksF (f + 1) (a :: r) = (a :: r).take 64 :: chunksF f ((a :: r).drop 64) :=
        rfl
      rw [hstep] at hc
      by_cases h64 : (a :: r).drop 64 = []
      · rw [h64, chunksF_nil] at hc
        simp at hc
      · have hlen : 64 < r.length + 1 := by
          by_contra hle
          exact h64 (List.drop_eq_nil_of_le (by simp only [List.length_cons]; omega))
        rw [List.dropLast_cons_of_ne_nil (chunksF_ne_nil f _ h64)] at hc
        rcases List.mem_cons.mp hc with rfl | hmem
        · simp only [List.length_take, List.length_cons]
          omega
        · exact ih _ (by simp only [List.length_drop, List.length_cons]; omega) c hmem

/-- The last chunk carries the remainder of the length modulo 64 (or a
full 64 characters when the length is an exact multiple). -/
theorem chunksF_getLast_len (f : Nat) :
    ∀ l : List Char, l.length ≤ f → l ≠ [] →
    ∃ lst, (chunksF f l).getLast? = some lst ∧
      lst.length = (if l.length % 64 = 0 then 64 else l.length % 64) := by
  induction f with
  | zero =>
    intro l hl hne
    exact absurd (List.length_eq_zero.mp (Nat.le_zero.mp hl)) hne
  | succ f ih =>
    intro l hl hne
    cases l with
    | nil => exact absurd rfl hne
    | cons a r =>
      simp only [List.length_cons] at hl
      have hstep : chunksF (f + 1) (a :: r) = (a :: r).take 64 :: chunksF f ((a :: r).drop 64) :=
        rfl
      by_cases h64 : (a :: r).drop 64 = []
      · have hle : (a :: r).length ≤ 64 := List.drop_eq_nil_iff.mp h64
        have htake : (a :: r).take 64 = a :: r := List.take_of_length_le hle
        refine ⟨a :: r, ?_, ?_⟩
        · rw [hstep, h64, chunksF_nil, htake]
          rfl
        · have hpos : 0 < (a :: r).length := by simp
          split <;> omega
      · have hgt : 64 < r.length + 1 := by
          by_contra hle
          exact h64 (List.drop_eq_nil_of_le (by simp only [List.length_cons]; omega))
        obtain ⟨lst, hlast, hlen⟩ := ih ((a :: r).drop 64)
          (by simp only [List.length_drop, List.length_cons]; omega) h64
        refine ⟨lst, ?_, ?_⟩
        · rw [hstep]
          cases hch : chunksF f ((a :: r).drop 64) with
          | nil => exact absurd hch (chunksF_ne_nil f _ h64)
          | cons x xs =>
            rw [hch] at hlast
            rw [← hlast]
            exact List.getLast?_cons_cons
        · rw [hlen]
          simp only [List.length_drop, List.length_cons]
          have h1 : (r.length + 1 - 64) % 64 = (r.length + 1) % 64 := by omega
          rw [h1]

/-! ### Supporting lemmas about line splitting -/

/-- Splitting off one newline-free line, accumulator form. -/
theorem splitLinesAux_append (a : List Char) (rest acc : List Char) (h : '\n' ∉ a) :
    splitLinesAux (a ++ '\n' :: rest) acc = (acc.reverse ++ a) :: splitLinesAux rest [] := by
  induction a generalizing acc with
  | nil => simp [splitLinesAux]
  | cons c r ih =>
    have hc : ¬c = '\n' := fun hh => h (hh ▸ List.mem_cons_self c r)
    have hr : '\n' ∉ r := fun hh => h (List.mem_cons_of_mem c hh)
    rw [List.cons_append, splitLinesAux, if_neg hc, ih _ hr]
    simp

/-- Splitting a text of the form line-newline-rest. -/
theorem splitLines_append (a rest : List Char) (h : '\n' ∉ a) :
    splitLines (a ++ '\n' :: rest) = a :: splitLines rest := by
  unfold splitLines
  rw [splitLinesAux_append a rest [] h]
  simp

/-- A newline-free suffix is one final line, accumulator form. -/
theorem splitLinesAux_single (a acc : List Char) (h : '\n' ∉ a) :
    splitLinesAux a acc = [acc.reverse ++ a] := by
  induction a generalizing acc with
  | nil => simp [splitLinesAux]
  | cons c r ih =>
    have hc : ¬c = '\n' := fun hh => h (hh ▸ List.mem_cons_self c r)
    have hr : '\n' ∉ r := fun hh => h (List.mem_cons_of_mem c hh)
    rw [splitLinesAux, if_neg hc, ih _ hr]
    simp

/-- A newline-free text is a single line. -/
theorem splitLines_single (a : List Char) (h : '\n' ∉ a) : splitLines a = [a] := by
  unfold splitLines
  rw [splitLinesAux_single a [] h]
  rfl

/-! ### Supporting lemmas about the codecs -/

/-- `getD` returns a member of the list or the default. -/
theorem getD_mem_or (l : List Char) (n : Nat) (d : Char) : l.getD n d ∈ l ∨ l.getD n d = d := by
  induction l generalizing n with
  | nil => right; cases n <;> rfl
  | cons c r ih =>
    cases n with
    | zero => left; exact List.mem_cons_self c r
    | succ k =>
      rcases ih k with hmem | hd
      · left; exact List.mem_cons_of_mem c hmem
      · right; exact hd

/-- Every base64 output character belongs to the alphabet. -/
theorem b64c_mem (n : Nat) : b64c n ∈ b64chars := by
  rcases getD_mem_or b64chars n 'A' with hmem | hd
  · exact hmem
  · rw [b64c, hd]; decide

/-- No base64 alphabet character is the padding character. -/
theorem b64c_ne_pad (n : Nat) : b64c n ≠ '=' :=
  fun h => absurd (h ▸ b64c_mem n) (by decide)

/-- Every hexadecimal output character belongs to the digit set. -/
theorem hexc_mem (n : Nat) : hexc n ∈ hexCharsU := by
  rcases getD_mem_or hexCharsU n '0' with hmem | hd
  · exact hmem
  · rw [hexc, hd]; decide

/-- Decoding a base64 character produced by encoding recovers its value. -/
theorem b64val_b64c : ∀ v < 64, b64val (b64c v) = some v := by decide

/-- Decoding a hex digit produced by encoding recovers its value. -/
theorem hexVal_hexc : ∀ v < 16, hexVal (hexc v) = some v := by decide

/-- Round trip of the hex codec on byte sequences. -/
theorem hexDecode_hexEncode (p : List Nat) (h : ∀ b ∈ p, b < 256) :
    hexDecode (hexEncodeUpper p) = .ok p := by
  induction p with
  | nil => rfl
  | cons b r ih =>
    have hb : b < 256 := h b (List.mem_cons_self b r)
    have hr : ∀ x ∈ r, x < 256 := fun x hx => h x (List.mem_cons_of_mem b hx)
    rw [hexEncodeUpper, hexDecode, hexVal_hexc (b / 16) (by omega),
      hexVal_hexc (b % 16) (by omega), ih hr]
    have hcomb : b / 16 * 16 + b % 16 = b := by omega
    show Except.ok ((b / 16 * 16 + b % 16) :: r) = Except.ok (b :: r)
    rw [hcomb]

/-- Characters of a hex encoding are hex digits. -/
theorem hexEncodeUpper_mem (p : List Nat) : ∀ c ∈ hexEncodeUpper p, c ∈ hexCharsU := by
  induction p with
  | nil => intro c hc; cases hc
  | cons b r ih =>
    intro c hc
    rw [hexEncodeUpper] at hc
    rcases List.mem_cons.mp hc with rfl | hc
    · exact hexc_mem _
    · rcases List.mem_cons.mp hc with rfl | hc
      · exact hexc_mem _
      · exact ih c hc

/-- Characters of a base64 encoding are alphabet characters or padding. -/
theorem base64Encode_mem (bs : List Nat) : ∀ c ∈ base64Encode bs, c ∈ b64chars ∨ c = '=' := by
  induction bs using base64Encode.induct with
  | case1 => intro c hc; cases hc
  | case2 a =>
    intro c hc
    rw [base64Encode] at hc
    rcases hc with _ | ⟨_, _ | ⟨_, _ | ⟨_, _ | ⟨_, h⟩⟩⟩⟩
    · exact Or.inl (b64c_mem _)
    · exact Or.inl (b64c_mem _)
    · exact Or.inr rfl
    · exact Or.inr rfl
    · cases h
  | case3 a b =>
    intro c hc
    rw [base64Encode] at hc
    rcases hc with _ | ⟨_, _ | ⟨_, _ | ⟨_, _ | ⟨_, h⟩⟩⟩⟩
    · exact Or.inl (b64c_mem _)
    · exact Or.inl (b64c_mem _)
    · exact Or.inl (b64c_mem _)
    · exact Or.inr rfl
    · cases h
  | case4 a b c rest ih =>
    intro x hx
    rw [base64Encode] at hx
    rcases hx with _ | ⟨_, _ | ⟨_, _ | ⟨_, _ | ⟨_, h⟩⟩⟩⟩
    · exact Or.inl (b64c_mem _)
    · exact Or.inl (b64c_mem _)
    · exact Or.inl (b64c_mem _)
    · exact Or.inl (b64c_mem _)
    · exact ih x h

/-- The base64 encoding of a non-empty byte sequence is non-empty. -/
theorem base64Encode_eq_nil_iff (bs : List Nat) : base64Encode bs = [] ↔ bs = [] := by
  constructor
  · intro h
    cases bs with
    | nil => rfl
    | cons a r =>
      cases r with
      | nil => exact absurd h (by rw [base64Encode]; intro hh; cases hh)
      | cons b r2 =>
        cases r2 with
        | nil => exact absurd h (by rw [base64Encode]; intro hh; cases hh)
        | cons c r3 => exact absurd h (by rw [base64Encode]; intro hh; cases hh)
  · rintro rfl; rfl

/-- Dropping a prefix of satisfied elements stops at the first failure. -/
theorem dropWhile_eq_self (p : Char → Bool) (l : List Char) (h : ∀ c ∈ l, p c = false) :
    l.dropWhile p = l := by
  cases l with
  | nil => rfl
  | cons c r => rw [List.dropWhile_cons, h c (List.mem_cons_self c r)]; simp

/-- Stripping padding distributes over an append whose left part is free
of padding characters. -/
theorem stripPad_append (l1 l2 : List Char) (h : ∀ x ∈ l1, x ≠ '=') :
    stripPad (l1 ++ l2) = l1 ++ stripPad l2 := by
  unfold stripPad
  rw [List.reverse_append, List.dropWhile_append]
  by_cases hd : (l2.reverse.dropWhile (fun c => decide (c = '='))).isEmpty
  · rw [if_pos hd]
    rw [List.isEmpty_iff] at hd
    rw [hd, List.reverse_nil, List.append_nil]
    rw [dropWhile_eq_self _ _ ?hf, List.reverse_reverse]
    case hf =>
      intro c hc
      exact decide_eq_false (h c (List.mem_reverse.mp hc))
  · rw [if_neg hd, List.reverse_append, List.reverse_reverse]

/-- Mapping characters to 6-bit values distributes over append. -/
theorem valsOf_append (l1 l2 : List Char) (v1 v2 : List Nat) (h1 : valsOf l1 = some v1)
    (h2 : valsOf l2 = some v2) : valsOf (l1 ++ l2) = some (v1 ++ v2) := by
  induction l1 generalizing v1 with
  | nil =>
    rw [valsOf] at h1
    cases h1
    simpa using h2
  | cons c r ih =>
    rw [valsOf] at h1
    rw [List.cons_append, valsOf]
    cases hb : b64val c with
    | none => rw [hb] at h1; cases h1
    | some v =>
      rw [hb] at h1
      cases hr : valsOf r with
      | none => rw [hr] at h1; cases h1
      | some vs =>
        rw [hr] at h1
        cases h1
        rw [ih vs hr]
        rfl

/-- Structure of the stripped base64 encoding of a byte sequence: all
characters are alphabet characters, their 6-bit values exist, and
reassembling the values yields the original bytes. -/
theorem b64_core (bs : List Nat) (h : ∀ b ∈ bs, b < 256) :
    (∀ x ∈ stripPad (base64Encode bs), x ∈ b64chars) ∧
    ∃ vals, valsOf (stripPad (base64Encode bs)) = some vals ∧ b64groups vals = .ok bs := by
  induction bs using base64Encode.induct with
  | case1 =>
    refine ⟨?_, [], rfl, rfl⟩
    intro x hx
    rw [show stripPad (base64Encode []) = [] from rfl] at hx
    cases hx
  | case2 a =>
    have ha : a < 256 := h a (by simp)
    have hstrip : stripPad (base64Encode [a]) = [b64c (a / 4), b64c (a % 4 * 16)] := by
      rw [base64Encode,
        show [b64c (a / 4), b64c (a % 4 * 16), '=', '='] =
          [b64c (a / 4), b64c (a % 4 * 16)] ++ ['=', '='] from rfl,
        stripPad_append _ _ ?hpad]
      case hpad =>
        intro x hx
        rcases List.mem_cons.mp hx with rfl | hx
        · exact b64c_ne_pad _
        · rcases List.mem_cons.mp hx with rfl | hx
          · exact b64c_ne_pad _
          · cases hx
      rfl
    rw [hstrip]
    refine ⟨?_, [a / 4, a % 4 * 16], ?_, ?_⟩
    · intro x hx
      rcases List.mem_cons.mp hx with rfl | hx
      · exact b64c_mem _
      · rcases List.mem_cons.mp hx with rfl | hx
        · exact b64c_mem _
        · cases hx
    · rw [valsOf, b64val_b64c (a / 4) (by omega), valsOf, b64val_b64c (a % 4 * 16) (by omega),
        valsOf]
    · rw [b64groups]
      have e1 : a / 4 * 4 + a % 4 * 16 / 16 = a := by
        rw [Nat.mul_div_cancel _ (by norm_num : (0 : Nat) < 16)]
        omega
      rw [e1]
  | case3 a b =>
    have ha : a < 256 := h a (by simp)
    have hb : b < 256 := h b (by simp)
    have hstrip : stripPad (base64Encode [a, b]) =
        [b64c (a / 4), b64c (a % 4 * 16 + b / 16), b64c (b % 16 * 4)] := by
      rw [base64Encode,
        show [b64c (a / 4), b64c (a % 4 * 16 + b / 16), b64c (b % 16 * 4), '='] =
          [b64c (a / 4), b64c (a % 4 * 16 + b / 16), b64c (b % 16 * 4)] ++ ['='] from rfl,
        stripPad_append _ _ ?hpad]
      case hpad =>
        intro x hx
        rcases List.mem_cons.mp hx with rfl | hx
        · exact b64c_ne_pad _
        · rcases List.mem_cons.mp hx with rfl | hx
          · exact b64c_ne_pad _
          · rcases List.mem_cons.mp hx with rfl | hx
            · exact b64c_ne_pad _
            · cases hx
      rfl
    rw [hstrip]
    refine ⟨?_, [a / 4, a % 4 * 16 + b / 16, b % 16 * 4], ?_, ?_⟩
    · intro x hx
      rcases List.mem_cons.mp hx with rfl | hx
      · exact b64c_mem _
      · rcases List.mem_cons.mp hx with rfl | hx
        · exact b64c_mem _
        · rcases List.mem_cons.mp hx with rfl | hx
          · exact b64c_mem _
          · cases hx
    · rw [valsOf, b64val_b64c (a / 4) (by omega), valsOf,
        b64val_b64c (a % 4 * 16 + b / 16) (by omega), valsOf,
        b64val_b64c (b % 16 * 4) (by omega), valsOf]
    · rw [b64groups]
      have e1 : a / 4 * 4 + (a % 4 * 16 + b / 16) / 16 = a := by omega
      have e2 : (a % 4 * 16 + b / 16) % 16 * 16 + b % 16 * 4 / 4 = b := by omega
      rw [e1, e2]
  | case4 a b c rest ih =>
    have ha : a < 256 := h a (by simp)
    have hb : b < 256 := h b (by simp)
    have hc : c < 256 := h c (by simp)
    have hrest : ∀ x ∈ rest, x < 256 := fun x hx => h x (by simp [hx])
    obtain ⟨ihmem, vals, ihvals, ihgroups⟩ := ih hrest
    have hstrip : stripPad (base64Encode (a :: b :: c :: rest)) =
        [b64c (a / 4), b64c (a % 4 * 16 + b / 16), b64c (b % 16 * 4 + c / 64), b64c (c % 64)] ++
          stripPad (base64Encode rest) := by
      rw [base64Encode,
        show b64c (a / 4) :: b64c (a % 4 * 16 + b / 16) :: b64c (b % 16 * 4 + c / 64) ::
            b64c (c % 64) :: base64Encode rest =
          [b64c (a / 4), b64c (a % 4 * 16 + b / 16), b64c (b % 16 * 4 + c / 64),
            b64c (c % 64)] ++ base64Encode rest from rfl,
        stripPad_append _ _ ?hpad]
      case hpad =>
        intro x hx
        rcases List.mem_cons.mp hx with rfl | hx
        · exact b64c_ne_pad _
        · rcases List.mem_cons.mp hx with rfl | hx
          · exact b64c_ne_pad _
          · rcases List.mem_cons.mp hx with rfl | hx
            · exact b64c_ne_pad _
            · rcases List.mem_cons.mp hx with rfl | hx
              · exact b64c_ne_pad _
              · cases hx
    rw [hstrip]
    refine ⟨?_, [a / 4, a % 4 * 16 + b / 16, b % 16 * 4 + c / 64, c % 64] ++ vals, ?_, ?_⟩
    · intro x hx
      rcases List.mem_append.mp hx with hx | hx
      · rcases List.mem_cons.mp hx with rfl | hx
        · exact b64c_mem _
        · rcases List.mem_cons.mp hx with rfl | hx
          · exact b64c_mem _
          · rcases List.mem_cons.mp hx with rfl | hx
            · exact b64c_mem _
            · rcases List.mem_cons.mp hx with rfl | hx
              · exact b64c_mem _
              · cases hx
      · exact ihmem x hx
    · refine valsOf_append _ _ _ _ ?_ ihvals
      rw [valsOf, b64val_b64c (a / 4) (by omega), valsOf,
        b64val_b64c (a % 4 * 16 + b / 16) (by omega), valsOf,
        b64val_b64c (b % 16 * 4 + c / 64) (by omega), valsOf,
        b64val_b64c (c % 64) (by omega), valsOf]
    · show b64groups (a / 4 :: (a % 4 * 16 + b / 16) :: (b % 16 * 4 + c / 64) :: c % 64 :: vals) =
        .ok (a :: b :: c :: rest)
      rw [b64groups, ihgroups]
      have e1 : a / 4 * 4 + (a % 4 * 16 + b / 16) / 16 = a := by omega
      have e2 : (a % 4 * 16 + b / 16) % 16 * 16 + (b % 16 * 4 + c / 64) / 4 = b := by omega
      have e3 : (b % 16 * 4 + c / 64) % 4 * 64 + c % 64 = c := by omega
      rw [e1, e2, e3]

/-- Round trip of the base64 codec on byte sequences: the tolerant decoder
inverts the padded encoder. -/
theorem base64Decode_encode (bs : List Nat) (h : ∀ b ∈ bs, b < 256) :
    base64Decode (base64Encode bs) = .ok bs := by
  obtain ⟨hmem, vals, hvals, hgroups⟩ := b64_core bs h
  have hany : ((stripPad (base64Encode bs)).any fun c => decide (c = '=')) = false := by
    rw [List.any_eq_false]
    intro x hx
    simp only [decide_eq_true_eq]
    exact fun hh => absurd (hh ▸ hmem x hx) (by decide)
  simp only [base64Decode]
  rw [hany, if_neg (by decide), hvals]
  exact hgroups

/-! ### Supporting lemmas about decimal rendering -/

/-- Appending one digit to a digit run multiplies the value by ten. -/
theorem digitsToNat_append_digit (l : List Char) (d : Char) :
    digitsToNat (l ++ [d]) = digitsToNat l * 10 + (d.toNat - 48) := by
  rw [digitsToNat, List.foldl_append]
  rfl

/-- With enough fuel, the decimal rendering of a number is a non-empty
digit run whose value is the number itself. -/
theorem natDigitsF_ok (f : Nat) : ∀ n < f, natDigitsF f n ≠ [] ∧
    (∀ c ∈ natDigitsF f n, isDigit c = true) ∧ digitsToNat (natDigitsF f n) = n := by
  induction f with
  | zero => intro n hn; omega
  | succ f ih =>
    intro n hn
    rw [natDigitsF]
    by_cases h10 : n < 10
    · rw [if_pos h10]
      refine ⟨by simp, ?_, ?_⟩
      · intro c hc
        rcases List.mem_cons.mp hc with rfl | hc
        · have hall : ∀ m < 10, isDigit (digitChar m) = true := by decide
          exact hall n h10
        · cases hc
      · have : ∀ m < 10, digitsToNat [digitChar m] = m := by decide
        exact this n h10
    · rw [if_neg h10]
      have hrec : n / 10 < f := by omega
      obtain ⟨ihne, ihdig, ihval⟩ := ih (n / 10) hrec
      refine ⟨by simp [ihne], ?_, ?_⟩
      · intro c hc
        rcases List.mem_append.mp hc with hc | hc
        · exact ihdig c hc
        · rcases List.mem_cons.mp hc with rfl | hc
          · have : ∀ m < 10, isDigit (digitChar m) = true := by decide
            exact this (n % 10) (by omega)
          · cases hc
      · rw [digitsToNat_append_digit, ihval]
        have : ∀ m < 10, (digitChar m).toNat - 48 = m := by decide
        rw [this (n % 10) (by omega)]
        omega

/-- The decimal rendering of a number is non-empty. -/
theorem natRender_ne_nil (n : Nat) : natRender n ≠ [] :=
  (natDigitsF_ok (n + 1) n (by omega)).1

/-- The decimal rendering of a number consists of digits. -/
theorem natRender_digits (n : Nat) : ∀ c ∈ natRender n, isDigit c = true :=
  (natDigitsF_ok (n + 1) n (by omega)).2.1

/-- Parsing the decimal rendering of a number recovers the number. -/
theorem digitsToNat_natRender (n : Nat) : digitsToNat (natRender n) = n :=
  (natDigitsF_ok (n + 1) n (by omega)).2.2

/-- A decimal digit is not a comma. -/
theorem digit_ne_comma (c : Char) (h : isDigit c = true) : c ≠ ',' := by
  rintro rfl
  exact absurd h (by decide)

/-- A decimal digit is not a newline. -/
theorem digit_ne_nl (c : Char) (h : isDigit c = true) : c ≠ '\n' := by
  rintro rfl
  exact absurd h (by decide)

/-! ### Supporting lemmas about the header-line scanners -/

/-- A list is a prefix of itself extended by anything. -/
theorem isPre_append_self (p t : List Char) : isPre p (p ++ t) = true := by
  induction p with
  | nil => rfl
  | cons c r ih => rw [List.cons_append, isPre, if_pos rfl, ih]

/-- Characters of a verified prefix belong to the longer list. -/
theorem isPre_mem (p : List Char) : ∀ l, isPre p l = true → ∀ x ∈ p, x ∈ l := by
  induction p with
  | nil => intro l _ x hx; cases hx
  | cons c r ih =>
    intro l h x hx
    cases l with
    | nil => exact absurd h (by rw [isPre]; exact Bool.false_ne_true)
    | cons b bs =>
      rw [isPre] at h
      by_cases hcb : c = b
      · rw [if_pos hcb] at h
        rcases List.mem_cons.mp hx with rfl | hx
        · exact hcb ▸ List.mem_cons_self b bs
        · exact List.mem_cons_of_mem b (ih bs h x hx)
      · rw [if_neg hcb] at h
        exact absurd h Bool.false_ne_true

/-- Splitting at the comma after a comma-free prefix. -/
theorem splitAtComma_append (a b : List Char) (h : ',' ∉ a) :
    splitAtComma (a ++ ',' :: b) = some (a, b) := by
  induction a with
  | nil => rw [List.nil_append, splitAtComma, if_pos rfl]
  | cons c r ih =>
    have hc : ¬c = ',' := fun hh => h (hh ▸ List.mem_cons_self c r)
    have hr : ',' ∉ r := fun hh => h (List.mem_cons_of_mem c hh)
    rw [List.cons_append, splitAtComma, if_neg hc, ih hr]

/-- A comma-free list does not split at a comma. -/
theorem splitAtComma_none (a : List Char) (h : ',' ∉ a) : splitAtComma a = none := by
  induction a with
  | nil => rfl
  | cons c r ih =>
    have hc : ¬c = ',' := fun hh => h (hh ▸ List.mem_cons_self c r)
    have hr : ',' ∉ r := fun hh => h (List.mem_cons_of_mem c hh)
    rw [splitAtComma, if_neg hc, ih hr]

/-- Splitting the header region at the first blank line. -/
theorem splitAtBlank_append (hdr rest : List (List Char)) (h : ∀ l ∈ hdr, l ≠ []) :
    splitAtBlank (hdr ++ [] :: rest) = some (hdr, rest) := by
  induction hdr with
  | nil => rfl
  | cons l hdr2 ih =>
    have hl : l ≠ [] := h l (List.mem_cons_self l hdr2)
    have hh : ∀ x ∈ hdr2, x ≠ [] := fun x hx => h x (List.mem_cons_of_mem l hx)
    cases l with
    | nil => exact absurd rfl hl
    | cons c cs =>
      rw [List.cons_append, splitAtBlank, ih hh]
      exact fun hh2 => List.noConfusion hh2

/-- Unfolding a run of non-continuation lines changes nothing. -/
theorem unfoldAux_noCont (rest : List (List Char)) :
    ∀ cur, (∀ l ∈ rest, isCont l = false) → unfoldAux rest cur = cur :: rest := by
  induction rest with
  | nil => intro cur _; rfl
  | cons l r ih =>
    intro cur h
    rw [unfoldAux, if_neg ?hno, ih l fun x hx => h x (List.mem_cons_of_mem l hx)]
    case hno =>
      rw [h l (List.mem_cons_self l r)]
      exact Bool.false_ne_true

/-- A header region with no continuation lines unfolds to itself. -/
theorem unfoldLines_noCont (ls : List (List Char)) (h : ∀ l ∈ ls, isCont l = false) :
    unfoldLines ls = ls := by
  cases ls with
  | nil => rfl
  | cons l rest =>
    rw [unfoldLines, unfoldAux_noCont rest l fun x hx => h x (List.mem_cons_of_mem l hx)]

/-- Trimming a line without whitespace changes nothing. -/
theorem trim_eq_self (l : List Char) (h : ∀ c ∈ l, isWs c = false) : trim l = l := by
  rw [trim, dropWhile_eq_self _ _ h, dropWhile_eq_self, List.reverse_reverse]
  intro c hc
  exact h c (List.mem_reverse.mp hc)

/-- Splitting a text assembled from newline-terminated lines plus a final
newline-free tail recovers the lines and the tail. -/
theorem splitLines_flatMap (L : List (List Char)) (tail : List Char)
    (hL : ∀ l ∈ L, '\n' ∉ l) (ht : '\n' ∉ tail) :
    splitLines (L.flatMap (fun l => l ++ ['\n']) ++ tail) = L ++ [tail] := by
  induction L with
  | nil => rw [List.flatMap_nil, List.nil_append, splitLines_single tail ht]; rfl
  | cons a L2 ih =>
    rw [List.flatMap_cons]
    simp only [List.append_assoc, List.singleton_append, List.cons_append]
    rw [splitLines_append a _ (hL a (List.mem_cons_self a L2)), List.nil_append,
      ih fun l hl => hL l (List.mem_cons_of_mem a hl)]

/-! ### Supporting lemmas: rendering as a line list -/

/-- A successful rendering is the concatenation of the newline-terminated
message lines followed by the END line. -/
theorem render_eq_lines (m : PemMessage) (h : m.label ≠ []) :
    m.render = .ok ((msgLines m).flatMap (fun l => l ++ ['\n']) ++ endLineOf m.label) := by
  rw [PemMessage.render, if_neg h]
  congr 1
  rw [msgLines, List.flatMap_cons, List.flatMap_append, List.flatMap_append]
  rw [PemHeader.render, bodyText, endLineOf]
  cases he : m.headers.is_empty <;>
    simp [List.append_assoc, List.flatMap_cons, List.flatMap_nil]

/-- Shape of the `Proc-Type` line: the bare field name with colon, one
space, then the version digits, a comma and the specifier token. -/
theorem ptline_shape (v : Nat) (sp : ProcTypeSpecifier) :
    ProcType.render ⟨v, sp⟩ =
      "Proc-Type:".data ++ (' ' :: (natRender v ++ ',' :: sp.render)) := by
  rw [ProcType.render,
    show "Proc-Type: ".data = "Proc-Type:".data ++ [' '] from rfl]
  simp [List.append_assoc]

/-- Shape of the `Content-Domain` line. -/
theorem cdline_shape (d : List Char) :
    contentDomainRender d = "Content-Domain:".data ++ (' ' :: d) := by
  rw [contentDomainRender,
    show "Content-Domain: ".data = "Content-Domain:".data ++ [' '] from rfl]
  simp [List.append_assoc]

/-- Shape of the `DEK-Info` line with an empty parameter. -/
theorem dekline_shape_nil (alg : List Char) :
    DEKInfo.render ⟨alg, []⟩ = "DEK-Info:".data ++ (' ' :: alg) := by
  rw [DEKInfo.render, if_pos rfl,
    show "DEK-Info: ".data = "DEK-Info:".data ++ [' '] from rfl]
  simp [List.append_assoc]

/-- Shape of the `DEK-Info` line with a non-empty parameter. -/
theorem dekline_shape_cons (alg : List Char) (p : List Nat) (hp : p ≠ []) :
    DEKInfo.render ⟨alg, p⟩ =
      "DEK-Info:".data ++ (' ' :: (alg ++ ',' :: hexEncodeUpper p)) := by
  rw [DEKInfo.render, if_neg hp,
    show "DEK-Info: ".data = "DEK-Info:".data ++ [' '] from rfl]
  simp [List.append_assoc]

/-- Parsing the BEGIN line that rendering produces recovers the label,
for any label free of five-dash runs at every position including the
boundary with the closing dashes. -/
theorem parseBeginLine_render (label : List Char) (hne : label ≠ [])
    (hd : splitAtDashes (label ++ "-----".data) = some (label, [])) :
    parseBeginLine ("-----BEGIN ".data ++ label ++ "-----".data) = .ok label := by
  rw [List.append_assoc, parseBeginLine, if_pos (isPre_append_self _ _)]
  have hdrop : ("-----BEGIN ".data ++ (label ++ "-----".data)).drop 11 =
      label ++ "-----".data := by
    simp [List.drop_left "-----BEGIN ".data (label ++ "-----".data)]
  rw [hdrop, hd]
  simp [hne]

/-! ### Supporting lemmas: parsing back the rendered header lines -/

/-- The specifier tokens parse back to their enum values. -/
theorem parseSpecifier_render (sp : ProcTypeSpecifier) : parseSpecifier sp.render = some sp := by
  cases sp <;> rfl

/-- The rendered `Proc-Type` body parses back to the field value. -/
theorem parseProcTypeBody_render (line : List Char) (v : Nat) (sp : ProcTypeSpecifier)
    (hv : v < 4294967296) :
    parseProcTypeBody line (natRender v ++ ',' :: sp.render) = .ok ⟨v, sp⟩ := by
  have hcomma : ',' ∉ natRender v :=
    fun hm => digit_ne_comma ',' (natRender_digits v ',' hm) rfl
  rw [parseProcTypeBody, splitAtComma_append _ _ hcomma]
  simp only [digitsToNat_natRender, parseSpecifier_render]
  rw [if_pos ⟨natRender_ne_nil v, List.all_eq_true.mpr (natRender_digits v)⟩, if_pos hv]

/-- The rendered `Proc-Type` line is consumed by the entry dispatcher. -/
theorem parseEntry_ptline (v : Nat) (sp : ProcTypeSpecifier) (h : PemHeader)
    (hv : v < 4294967296) :
    parseEntry (ProcType.render ⟨v, sp⟩) h = .ok { h with proc_type := some ⟨v, sp⟩ } := by
  rw [ptline_shape, parseEntry, if_pos (isPre_append_self _ _)]
  have hdrop : ("Proc-Type:".data ++ (' ' :: (natRender v ++ ',' :: sp.render))).drop 10 =
      ' ' :: (natRender v ++ ',' :: sp.render) := by
    simp [List.drop_left "Proc-Type:".data _]
  rw [hdrop, dropOneSpace, if_pos rfl, parseProcTypeBody_render _ v sp hv]

/-- The rendered `Content-Domain` line is consumed by the entry
dispatcher, recovering the verbatim value. -/
theorem parseEntry_cdline (d : List Char) (h : PemHeader) :
    parseEntry (contentDomainRender d) h = .ok { h with content_domain := some d } := by
  rw [cdline_shape, parseEntry]
  rw [if_neg (by rw [show isPre "Proc-Type:".data
    ("Content-Domain:".data ++ (' ' :: d)) = false from rfl]; exact Bool.false_ne_true)]
  rw [if_pos (isPre_append_self _ _)]
  have hdrop : ("Content-Domain:".data ++ (' ' :: d)).drop 15 = ' ' :: d := by
    simp [List.drop_left "Content-Domain:".data _]
  rw [hdrop, dropOneSpace, if_pos rfl]

/-- The rendered `DEK-Info` line is consumed by the entry dispatcher,
recovering algorithm and parameter. -/
theorem parseEntry_dekline (dk : DEKInfo) (h : PemHeader)
    (hcomma : ',' ∉ dk.algorithm) (hbytes : ∀ b ∈ dk.parameter, b < 256) :
    parseEntry (DEKInfo.render dk) h = .ok { h with dek_info := some dk } := by
  obtain ⟨alg, param⟩ := dk
  simp only at hcomma hbytes
  cases param with
  | nil =>
    have h1 : isPre "Proc-Type:".data ("DEK-Info:".data ++ (' ' :: alg)) = false := rfl
    have h2 : isPre "Content-Domain:".data ("DEK-Info:".data ++ (' ' :: alg)) = false := rfl
    have hdrop : ("DEK-Info:".data ++ (' ' :: alg)).drop 9 = ' ' :: alg := by
      simp [List.drop_left "DEK-Info:".data _]
    rw [dekline_shape_nil, parseEntry, if_neg (by rw [h1]; exact Bool.false_ne_true),
      if_neg (by rw [h2]; exact Bool.false_ne_true), if_pos (isPre_append_self _ _),
      hdrop, dropOneSpace, if_pos rfl, parseDekInfoBody, splitAtComma_none alg hcomma]
    rfl
  | cons p0 ps =>
    have h1 : isPre "Proc-Type:".data
        ("DEK-Info:".data ++ (' ' :: (alg ++ ',' :: hexEncodeUpper (p0 :: ps)))) = false := rfl
    have h2 : isPre "Content-Domain:".data
        ("DEK-Info:".data ++ (' ' :: (alg ++ ',' :: hexEncodeUpper (p0 :: ps)))) = false := rfl
    have hdrop : ("DEK-Info:".data ++ (' ' :: (alg ++ ',' :: hexEncodeUpper (p0 :: ps)))).drop 9 =
        ' ' :: (alg ++ ',' :: hexEncodeUpper (p0 :: ps)) := by
      simp [List.drop_left "DEK-Info:".data _]
    have hbody : parseDekInfoBody (alg ++ ',' :: hexEncodeUpper (p0 :: ps)) =
        .ok ⟨alg, p0 :: ps⟩ := by
      rw [parseDekInfoBody, splitAtComma_append _ _ hcomma]
      show (match hexDecode (hexEncodeUpper (p0 :: ps)) with
        | .ok p => (Except.ok ⟨alg, p⟩ : Except PemErr DEKInfo)
        | .error e => .error ⟨e, hexEncodeUpper (p0 :: ps)⟩) = .ok ⟨alg, p0 :: ps⟩
      rw [hexDecode_hexEncode (p0 :: ps) hbytes]
    rw [dekline_shape_cons alg (p0 :: ps) (by simp), parseEntry,
      if_neg (by rw [h1]; exact Bool.false_ne_true),
      if_neg (by rw [h2]; exact Bool.false_ne_true), if_pos (isPre_append_self _ _),
      hdrop, dropOneSpace, if_pos rfl, hbody]

/-- The specifier tokens contain no newline. -/
theorem specifier_no_nl (sp : ProcTypeSpecifier) : '\n' ∉ sp.render := by
  cases sp <;> decide

/-- The `Proc-Type` line contains no newline. -/
theorem ptline_no_nl (pt : ProcType) : '\n' ∉ ProcType.render pt := by
  obtain ⟨v, sp⟩ := pt
  intro hm
  rw [ProcType.render] at hm
  simp only [List.append_assoc, List.mem_append, List.mem_singleton] at hm
  rcases hm with hm | hm | hm | hm
  · exact absurd hm (by decide)
  · exact digit_ne_nl '\n' (natRender_digits v '\n' hm) rfl
  · exact absurd hm (by decide)
  · exact specifier_no_nl sp hm

/-- The `Content-Domain` line contains no newline when its value has none. -/
theorem cdline_no_nl (d : List Char) (h : '\n' ∉ d) : '\n' ∉ contentDomainRender d := by
  intro hm
  rw [contentDomainRender] at hm
  rcases List.mem_append.mp hm with hm | hm
  · exact absurd hm (by decide)
  · exact h hm

/-- The `DEK-Info` line contains no newline when its algorithm has none. -/
theorem dekline_no_nl (dk : DEKInfo) (h : '\n' ∉ dk.algorithm) : '\n' ∉ DEKInfo.render dk := by
  intro hm
  rw [DEKInfo.render] at hm
  split at hm
  · rcases List.mem_append.mp hm with hm | hm
    · exact absurd hm (by decide)
    · exact h hm
  · simp only [List.append_assoc, List.mem_append, List.mem_singleton] at hm
    rcases hm with hm | hm | hm | hm
    · exact absurd hm (by decide)
    · exact h hm
    · exact absurd hm (by decide)
    · exact absurd (hexEncodeUpper_mem _ '\n' hm) (by decide)

/-- None of the rendered header lines is a continuation line. -/
theorem isCont_ptline (pt : ProcType) : isCont (ProcType.render pt) = false := by
  obtain ⟨v, sp⟩ := pt
  rw [ptline_shape]
  rfl

/-- The `Content-Domain` line is not a continuation line. -/
theorem isCont_cdline (d : List Char) : isCont (contentDomainRender d) = false := by
  rw [cdline_shape]
  rfl

/-- The `DEK-Info` line is not a continuation line. -/
theorem isCont_dekline (dk : DEKInfo) : isCont (DEKInfo.render dk) = false := by
  obtain ⟨alg, param⟩ := dk
  cases param with
  | nil => rw [dekline_shape_nil]; rfl
  | cons p0 ps => rw [dekline_shape_cons alg (p0 :: ps) (by simp)]; rfl

/-- The rendered header lines are non-blank. -/
theorem ptline_ne_nil (pt : ProcType) : ProcType.render pt ≠ [] := by
  obtain ⟨v, sp⟩ := pt
  rw [ptline_shape]
  simp

/-- The `Content-Domain` line is non-blank. -/
theorem cdline_ne_nil (d : List Char) : contentDomainRender d ≠ [] := by
  rw [cdline_shape]
  simp

/-- The `DEK-Info` line is non-blank. -/
theorem dekline_ne_nil (dk : DEKInfo) : DEKInfo.render dk ≠ [] := by
  obtain ⟨alg, param⟩ := dk
  cases param with
  | nil => rw [dekline_shape_nil]; simp
  | cons p0 ps => rw [dekline_shape_cons alg (p0 :: ps) (by simp)]; simp

/-- Parsing back the rendered header region recovers the header block. -/
theorem parseHeaders_render (pt : ProcType) (cd : Option (List Char)) (dk : Option DEKInfo)
    (hv : pt.version < 4294967296)
    (hdek : ∀ d, dk = some d → ',' ∉ d.algorithm ∧ ∀ b ∈ d.parameter, b < 256) :
    parseHeaders (PemHeader.renderLines ⟨some pt, cd, dk⟩) = .ok ⟨some pt, cd, dk⟩ := by
  obtain ⟨v, sp⟩ := pt
  have hlines : PemHeader.renderLines ⟨some ⟨v, sp⟩, cd, dk⟩ =
      ProcType.render ⟨v, sp⟩ ::
        ((cd.map contentDomainRender).toList ++ (dk.map DEKInfo.render).toList) := rfl
  have hnocont : ∀ l ∈ PemHeader.renderLines ⟨some ⟨v, sp⟩, cd, dk⟩, isCont l = false := by
    rw [hlines]
    intro l hl
    rcases List.mem_cons.mp hl with rfl | hl
    · exact isCont_ptline _
    · rcases List.mem_append.mp hl with hl | hl
      · cases cd with
        | none => cases hl
        | some d =>
          rcases List.mem_singleton.mp hl with rfl
          exact isCont_cdline d
      · cases dk with
        | none => cases hl
        | some dkk =>
          rcases List.mem_singleton.mp hl with rfl
          exact isCont_dekline dkk
  rw [parseHeaders, unfoldLines_noCont _ hnocont, hlines]
  show (if isPre "Proc-Type:".data (ProcType.render ⟨v, sp⟩) = true then
      foldEntries (ProcType.render ⟨v, sp⟩ ::
        ((cd.map contentDomainRender).toList ++ (dk.map DEKInfo.render).toList)) {}
    else Except.error ⟨"Proc-Type must be the first header entry".data,
      ProcType.render ⟨v, sp⟩⟩) = .ok ⟨some ⟨v, sp⟩, cd, dk⟩
  rw [if_pos (by rw [ptline_shape]; exact isPre_append_self _ _)]
  rw [foldEntries, parseEntry_ptline v sp {} hv]
  show foldEntries ((cd.map contentDomainRender).toList ++ (dk.map DEKInfo.render).toList)
    ⟨some ⟨v, sp⟩, none, none⟩ = .ok ⟨some ⟨v, sp⟩, cd, dk⟩
  cases cd with
  | none =>
    cases dk with
    | none => rfl
    | some dkk =>
      obtain ⟨hc, hb⟩ := hdek dkk rfl
      rw [show ((none : Option (List Char)).map contentDomainRender).toList ++
          ((some dkk).map DEKInfo.render).toList = [DEKInfo.render dkk] from rfl]
      rw [foldEntries, parseEntry_dekline dkk _ hc hb]
      rfl
  | some d =>
    cases dk with
    | none =>
      rw [show ((some d).map contentDomainRender).toList ++
          ((none : Option DEKInfo).map DEKInfo.render).toList = [contentDomainRender d] from rfl]
      rw [foldEntries, parseEntry_cdline d _]
      rfl
    | some dkk =>
      obtain ⟨hc, hb⟩ := hdek dkk rfl
      rw [show ((some d).map contentDomainRender).toList ++
          ((some dkk).map DEKInfo.render).toList =
          [contentDomainRender d, DEKInfo.render dkk] from rfl]
      rw [foldEntries, parseEntry_cdline d _]
      show foldEntries [DEKInfo.render dkk] ⟨some ⟨v, sp⟩, some d, none⟩ =
        .ok ⟨some ⟨v, sp⟩, some d, some dkk⟩
      rw [foldEntries, parseEntry_dekline dkk _ hc hb]
      rfl

/-! ### Supporting lemmas: evaluating the parser on rendered text -/

/-- Mapping a function that fixes every member of a list is the identity. -/
theorem map_self {α : Type} (f : α → α) (L : List α) (h : ∀ a ∈ L, f a = a) : L.map f = L := by
  induction L with
  | nil => rfl
  | cons a L2 ih =>
    rw [List.map_cons, h a (List.mem_cons_self a L2),
      ih fun x hx => h x (List.mem_cons_of_mem a hx)]

/-- Characters of a body chunk line are alphabet characters or padding. -/
theorem chunk_chars (content : List Nat) :
    ∀ c ∈ chunks64 (base64Encode content), ∀ x ∈ c, x ∈ b64chars ∨ x = '=' :=
  fun c hc x hx => base64Encode_mem content x (chunksF_subset _ _ c hc x hx)

/-- A body chunk line contains no newline. -/
theorem chunkline_no_nl (content : List Nat) :
    ∀ c ∈ chunks64 (base64Encode content), '\n' ∉ c := by
  intro c hc hm
  rcases chunk_chars content c hc '\n' hm with hmem | heq
  · exact absurd hmem (by decide)
  · exact absurd heq (by decide)

/-- A body chunk line contains no whitespace. -/
theorem chunkline_no_ws (content : List Nat) :
    ∀ c ∈ chunks64 (base64Encode content), ∀ x ∈ c, isWs x = false := by
  intro c hc x hm
  rcases chunk_chars content c hc x hm with hmem | heq
  · have hall : ∀ y ∈ b64chars, isWs y = false := by decide
    exact hall x hmem
  · rw [heq]
    rfl

/-- A body chunk line contains no colon. -/
theorem chunkline_no_colon (content : List Nat) :
    ∀ c ∈ chunks64 (base64Encode content), ':' ∉ c := by
  intro c hc hm
  rcases chunk_chars content c hc ':' hm with hmem | heq
  · exact absurd hmem (by decide)
  · exact absurd heq (by decide)

/-- Decoding the wrapped body lines of a rendering recovers the bytes. -/
theorem decodeContent_chunks (content : List Nat) (h : ∀ b ∈ content, b < 256) :
    decodeContent (chunks64 (base64Encode content)) = .ok content := by
  have hmap : (chunks64 (base64Encode content)).map trim = chunks64 (base64Encode content) :=
    map_self trim _ fun c hc => trim_eq_self c (chunkline_no_ws content c hc)
  rw [decodeContent, hmap, chunks64, chunksF_flatten, base64Decode_encode content h]

/-- A line without a colon does not begin a header entry. -/
theorem isHeaderStart_no_colon (line : List Char) (h : ':' ∉ line) :
    isHeaderStart line = false := by
  cases hh : isHeaderStart line with
  | false => rfl
  | true =>
    exfalso
    rw [isHeaderStart, List.any_eq_true] at hh
    obtain ⟨n, _, hp⟩ := hh
    exact h (isPre_mem _ _ hp ':' (List.mem_append_right n (List.mem_singleton.mpr rfl)))

/-- The rendered `Proc-Type` line begins a header entry. -/
theorem isHeaderStart_ptline (pt : ProcType) : isHeaderStart (ProcType.render pt) = true := by
  obtain ⟨v, sp⟩ := pt
  rw [isHeaderStart, List.any_eq_true]
  refine ⟨"Proc-Type".data, List.mem_cons_self _ _, ?_⟩
  rw [show "Proc-Type".data ++ [':'] = "Proc-Type:".data from rfl, ptline_shape]
  exact isPre_append_self _ _

/-- The END line is not blank. -/
theorem endLine_ne_nil (label : List Char) : endLineOf label ≠ [] := by
  rw [endLineOf]
  simp

/-- The END line contains no newline when the label has none. -/
theorem endLine_no_nl (label : List Char) (h : '\n' ∉ label) : '\n' ∉ endLineOf label := by
  intro hm
  rw [endLineOf] at hm
  rcases List.mem_append.mp hm with hm | hm
  · rcases List.mem_append.mp hm with hm | hm
    · exact absurd hm (by decide)
    · exact h hm
  · exact absurd hm (by decide)

/-- No line of a rendered message contains a newline, under the side
conditions on the fields. -/
theorem msgLines_no_nl (m : PemMessage) (hlabel : '\n' ∉ m.label)
    (hcd : ∀ d, m.headers.content_domain = some d → '\n' ∉ d)
    (hdek : ∀ dk, m.headers.dek_info = some dk → '\n' ∉ dk.algorithm) :
    ∀ l ∈ msgLines m, '\n' ∉ l := by
  intro l hl
  rw [msgLines] at hl
  rcases List.mem_cons.mp hl with rfl | hl
  · intro hm
    rcases List.mem_append.mp hm with hm | hm
    · rcases List.mem_append.mp hm with hm | hm
      · exact absurd hm (by decide)
      · exact hlabel hm
    · exact absurd hm (by decide)
  · rcases List.mem_append.mp hl with hl | hl
    · rcases List.mem_append.mp hl with hl | hl
      · rw [PemHeader.renderLines] at hl
        cases hpt : m.headers.proc_type with
        | none => rw [hpt] at hl; cases hl
        | some pt =>
          rw [hpt] at hl
          rcases List.mem_cons.mp hl with rfl | hl
          · exact ptline_no_nl pt
          · rcases List.mem_append.mp hl with hl | hl
            · cases hcdv : m.headers.content_domain with
              | none => rw [hcdv] at hl; cases hl
              | some d =>
                rw [hcdv] at hl
                rcases List.mem_singleton.mp hl with rfl
                exact cdline_no_nl d (hcd d hcdv)
            · cases hdkv : m.headers.dek_info with
              | none => rw [hdkv] at hl; cases hl
              | some dkk =>
                rw [hdkv] at hl
                rcases List.mem_singleton.mp hl with rfl
                exact dekline_no_nl dkk (hdek dkk hdkv)
      · split at hl
        · cases hl
        · rcases List.mem_singleton.mp hl with rfl
          intro hm
          cases hm
    · exact chunkline_no_nl m.content l hl

/-- The envelope stage after a successful BEGIN line. -/
theorem parseEnvelope_cons (first : List Char) (rest : List (List Char)) (label : List Char)
    (hb : parseBeginLine first = .ok label) :
    parseEnvelope (first :: rest) = parseAfterBegin label rest := by
  rw [parseEnvelope, hb]

/-- The END boundary matching the label is found and removed. -/
theorem parseAfterBegin_concat (label : List Char) (middle : List (List Char)) :
    parseAfterBegin label (middle ++ [endLineOf label]) = parseMiddle label middle := by
  rw [parseAfterBegin, List.getLast?_concat]
  show (if endLineOf label = endLineOf label then
      parseMiddle label ((middle ++ [endLineOf label]).dropLast)
    else .error ⟨"Mismatched END encapsulation boundary".data, endLineOf label⟩) =
    parseMiddle label middle
  rw [if_pos rfl, List.dropLast_concat]

/-- A middle region whose first line does not look like a header entry is
all content. -/
theorem splitHeaderContent_content (cls : List (List Char))
    (h : ∀ c0 crest, cls = c0 :: crest → isHeaderStart c0 = false) :
    splitHeaderContent cls = .ok ([], cls) := by
  cases cls with
  | nil => rfl
  | cons c0 crest =>
    rw [splitHeaderContent, if_neg ?hne]
    case hne =>
      rw [h c0 crest rfl]
      exact Bool.false_ne_true

/-- A middle region of non-blank header lines, a blank separator and the
content lines is split at the separator. -/
theorem splitHeaderContent_headers (f : List Char) (t rest : List (List Char))
    (hne : ∀ l ∈ f :: t, l ≠ []) (hf : isHeaderStart f = true) :
    splitHeaderContent ((f :: t) ++ [] :: rest) = .ok (f :: t, rest) := by
  rw [List.cons_append, splitHeaderContent, if_pos hf, ← List.cons_append,
    splitAtBlank_append _ _ hne]

/-- Evaluation of the middle stage from the results of its three parts. -/
theorem parseMiddle_eval (label : List Char) (middle hdrLines contentLines : List (List Char))
    (hdr : PemHeader) (content : List Nat)
    (hsplit : splitHeaderContent middle = .ok (hdrLines, contentLines))
    (hhdr : (if hdrLines = [] then .ok {} else parseHeaders hdrLines :
      Except PemErr PemHeader) = .ok hdr)
    (hdec : decodeContent contentLines = .ok content) :
    parseMiddle label middle = .ok ⟨label, hdr, content⟩ := by
  rw [parseMiddle, hsplit]
  show (match (if hdrLines = [] then .ok {} else parseHeaders hdrLines :
      Except PemErr PemHeader) with
    | .error e => (.error e : Except PemErr PemMessage)
    | .ok hdr2 =>
      match decodeContent contentLines with
      | .error e => .error e
      | .ok content2 => .ok ⟨label, hdr2, content2⟩) = .ok ⟨label, hdr, content⟩
  rw [hhdr]
  show (match decodeContent contentLines with
    | .error e => (.error e : Except PemErr PemMessage)
    | .ok content2 => .ok ⟨label, hdr, content2⟩) = .ok ⟨label, hdr, content⟩
  rw [hdec]

/-! ### Claim theorems -/

/-- Claim C2: rendering a `HeaderBlock` whose `proc_type` is absent
produces empty header text, no matter what `content_domain` or `dek_info`
hold; when `proc_type` is present, `Proc-Type` is rendered first, then
`Content-Domain` if present, then `DEK-Info` if present, each followed by
exactly one newline. -/
theorem claim_C2 (h : PemHeader) :
    (h.proc_type = none → h.render = []) ∧
    (∀ pt, h.proc_type = some pt →
      h.render = (pt.render ++ ['\n']) ++
        (match h.content_domain with
         | none => []
         | some d => contentDomainRender d ++ ['\n']) ++
        (match h.dek_info with
         | none => []
         | some dk => dk.render ++ ['\n'])) := by
  obtain ⟨pt, cd, dk⟩ := h
  constructor
  · rintro rfl
    rfl
  · rintro pt' rfl
    cases cd <;> cases dk <;> simp [PemHeader.render, PemHeader.renderLines]

/-- Witness for C2 at concrete header blocks: a block with
`content_domain` and `dek_info` set but no `proc_type` renders to nothing,
and a block with all three set renders the three lines in order. -/
theorem claim_C2_witness :
    PemHeader.render ⟨none, some "RFC822".data, some ⟨"DES-CBC".data, []⟩⟩ = [] ∧
    PemHeader.render ⟨some ⟨4, .ENCRYPTED⟩, some "RFC822".data, some ⟨"DES-CBC".data, []⟩⟩ =
      "Proc-Type: 4,ENCRYPTED\nContent-Domain: RFC822\nDEK-Info: DES-CBC\n".data := by
  constructor
  · exact (claim_C2 _).1 rfl
  · have h := (claim_C2 ⟨some ⟨4, .ENCRYPTED⟩, some "RFC822".data,
      some ⟨"DES-CBC".data, []⟩⟩).2 ⟨4, .ENCRYPTED⟩ rfl
    rw [h]
    decide

/-- Claim C3: rendering a `Message` fails with the rendering error value
exactly when the label is the empty string, regardless of headers or
content; with any non-empty label rendering succeeds with some output. -/
theorem claim_C3 (m : PemMessage) :
    (m.render = .error () ↔ m.label = []) ∧
    (m.label ≠ [] → ∃ s, m.render = .ok s) := by
  constructor
  · constructor
    · intro hr
      by_contra hl
      simp only [PemMessage.render, if_neg hl] at hr
      exact Except.noConfusion hr
    · intro hl
      simp [PemMessage.render, hl]
  · intro hl
    exact ⟨_, by simp only [PemMessage.render, if_neg hl]; rfl⟩

/-- Witness for C3: the empty label fails even with content present, and
the label `MESSAGE` renders successfully. -/
theorem claim_C3_witness :
    (PemMessage.render ⟨[], {}, [1, 2, 3]⟩ = .error () ↔ ([] : List Char) = []) ∧
    ∃ s, PemMessage.render ⟨"MESSAGE".data, {}, [1, 2, 3]⟩ = .ok s :=
  ⟨(claim_C3 ⟨[], {}, [1, 2, 3]⟩).1,
   (claim_C3 ⟨"MESSAGE".data, {}, [1, 2, 3]⟩).2 (by decide)⟩

/-- Claim C4: the concrete input consisting of the BEGIN MESSAGE line,
one base64 line and the END MESSAGE line parses to the message with label
`MESSAGE`, all-absent headers and the bytes of `This is a message` as
content, and rendering that message reproduces exactly the input text. -/
theorem claim_C4 :
    parsePem "-----BEGIN MESSAGE-----\nVGhpcyBpcyBhIG1lc3NhZ2U=\n-----END MESSAGE-----".data =
      .ok ⟨"MESSAGE".data, {}, "This is a message".data.map Char.toNat⟩ ∧
    PemMessage.render ⟨"MESSAGE".data, {}, "This is a message".data.map Char.toNat⟩ =
      .ok "-----BEGIN MESSAGE-----\nVGhpcyBpcyBhIG1lc3NhZ2U=\n-----END MESSAGE-----".data := by
  constructor <;> decide

/-- Claim C10: `PemHeader.is_empty` is true exactly when `proc_type` is
absent, whatever the other fields hold, and this predicate alone gates the
blank separator line between the header text and the body when a message
is rendered. -/
theorem claim_C10 :
    (∀ h : PemHeader, h.is_empty = true ↔ h.proc_type = none) ∧
    (∀ (label : List Char) (h : PemHeader) (content : List Nat), label ≠ [] →
      PemMessage.render ⟨label, h, content⟩ =
        .ok ("-----BEGIN ".data ++ label ++ "-----".data ++ ['\n'] ++
          h.render ++ (if h.is_empty then [] else ['\n']) ++
          bodyText content ++ "-----END ".data ++ label ++ "-----".data)) := by
  constructor
  · intro h
    simp [PemHeader.is_empty, Option.isNone_iff_eq_none]
  · intro label h content hl
    simp only [PemMessage.render, if_neg hl]

/-- Witness for C10: a header block with `content_domain` set but no
`proc_type` is empty, and rendering with it emits no separator line. -/
theorem claim_C10_witness :
    ((⟨none, some "RFC822".data, none⟩ : PemHeader).is_empty = true ↔
      (⟨none, some "RFC822".data, none⟩ : PemHeader).proc_type = none) ∧
    PemMessage.render ⟨"A".data, ⟨none, some "RFC822".data, none⟩, []⟩ =
      .ok ("-----BEGIN ".data ++ "A".data ++ "-----".data ++ ['\n'] ++
        (⟨none, some "RFC822".data, none⟩ : PemHeader).render ++
        (if (⟨none, some "RFC822".data, none⟩ : PemHeader).is_empty then [] else ['\n']) ++
        bodyText [] ++ "-----END ".data ++ "A".data ++ "-----".data) :=
  ⟨claim_C10.1 _, claim_C10.2 "A".data ⟨none, some "RFC822".data, none⟩ [] (by decide)⟩

/-- Claim C5: the decoded content depends only on the concatenation of
the trimmed content lines; the decoder never fails on non-canonical
trailing bits of the last symbol (they are masked:  any valid final
symbol after `Q` decodes, canonical or not); a whitespace-decorated
content line parses like the plain one; and a base64 failure surfaces as
an error whose span covers the content region. -/
theorem claim_C5 :
    (∀ ls₁ ls₂ : List (List Char), (ls₁.map trim).flatten = (ls₂.map trim).flatten →
      (decodeContent ls₁).toOption = (decodeContent ls₂).toOption) ∧
    (∀ (c : Char) (v : Nat), b64val c = some v →
      base64Decode ['Q', c, '=', '='] = .ok [64 + v / 16]) ∧
    parsePem "-----BEGIN A-----\n  VGhpcyBpcyBhIG1lc3NhZ2U=  \n-----END A-----".data =
      .ok ⟨"A".data, {}, "This is a message".data.map Char.toNat⟩ ∧
    parsePem "-----BEGIN A-----\n!!!!\n-----END A-----".data =
      .error ⟨"Invalid byte.".data, "!!!!\n".data⟩ := by
  refine ⟨?_, ?_, by decide, by decide⟩
  · intro ls₁ ls₂ hflat
    simp only [decodeContent, hflat]
    cases base64Decode ((ls₂.map trim).flatten) <;> rfl
  · intro c v hv
    have hcne : c ≠ '=' := by
      rintro rfl
      exact Option.noConfusion ((by decide : b64val '=' = (none : Option Nat)) ▸ hv)
    have hstrip : stripPad ['Q', c, '=', '='] = ['Q', c] := by
      simp [stripPad, List.dropWhile, hcne]
    have hany : (['Q', c].any fun x => decide (x = '=')) = false := by
      simp [hcne]
    simp [base64Decode, hstrip, hany, valsOf, hv,
      show b64val 'Q' = some 16 by decide, b64groups]

/-- Witness for C5 at concrete inputs: two content regions with the same
trimmed concatenation decode alike, and the non-canonical final symbol
`R` is tolerated. -/
theorem claim_C5_witness :
    (decodeContent ["  QUJD".data, "ZA==  ".data]).toOption =
      (decodeContent ["QUJDZA==".data]).toOption ∧
    base64Decode ['Q', 'R', '=', '='] = .ok [64 + 17 / 16] :=
  ⟨claim_C5.1 ["  QUJD".data, "ZA==  ".data] ["QUJDZA==".data] (by decide),
   claim_C5.2.1 'R' 17 (by decide)⟩

/-- Claim C7: the `Proc-Type` body is `<version>,<specifier>` with the
version an unsigned integer; the specifier parser accepts exactly the
four literal tokens, mapped to the four enum values; and the concrete
line `Proc-Type: 4,BOGUS` fails with the invalid-specifier error whose
span is the token `BOGUS`. -/
theorem claim_C7 :
    (∀ (s : List Char) (x : ProcTypeSpecifier), parseSpecifier s = some x ↔
      ((s = "ENCRYPTED".data ∧ x = .ENCRYPTED) ∨ (s = "MIC-ONLY".data ∧ x = .MIC_ONLY) ∨
       (s = "MIC-CLEAR".data ∧ x = .MIC_CLEAR) ∨ (s = "CRL".data ∧ x = .CRL))) ∧
    parsePem "-----BEGIN A-----\nProc-Type: 4,ENCRYPTED\n\nQUJD\n-----END A-----".data =
      .ok ⟨"A".data, ⟨some ⟨4, .ENCRYPTED⟩, none, none⟩, [65, 66, 67]⟩ ∧
    parsePem "-----BEGIN A-----\nProc-Type: 4,BOGUS\n\nQUJD\n-----END A-----".data =
      .error ⟨"Invalid Proc-Type specifier".data, "BOGUS".data⟩ := by
  refine ⟨?_, by decide, by decide⟩
  intro s x
  constructor
  · intro h
    unfold parseSpecifier at h
    split at h
    · exact Or.inl ⟨by assumption, (Option.some.inj h).symm⟩
    · split at h
      · exact Or.inr (Or.inl ⟨by assumption, (Option.some.inj h).symm⟩)
      · split at h
        · exact Or.inr (Or.inr (Or.inl ⟨by assumption, (Option.some.inj h).symm⟩))
        · split at h
          · exact Or.inr (Or.inr (Or.inr ⟨by assumption, (Option.some.inj h).symm⟩))
          · exact Option.noConfusion h
  · rintro (⟨rfl, rfl⟩ | ⟨rfl, rfl⟩ | ⟨rfl, rfl⟩ | ⟨rfl, rfl⟩) <;> decide

/-- Witness for C7: the token `MIC-ONLY` parses to the `MIC_ONLY` value. -/
theorem claim_C7_witness :
    parseSpecifier "MIC-ONLY".data = some .MIC_ONLY ↔
      (("MIC-ONLY".data = "ENCRYPTED".data ∧ ProcTypeSpecifier.MIC_ONLY = .ENCRYPTED) ∨
       ("MIC-ONLY".data = "MIC-ONLY".data ∧ ProcTypeSpecifier.MIC_ONLY = .MIC_ONLY) ∨
       ("MIC-ONLY".data = "MIC-CLEAR".data ∧ ProcTypeSpecifier.MIC_ONLY = .MIC_CLEAR) ∨
       ("MIC-ONLY".data = "CRL".data ∧ ProcTypeSpecifier.MIC_ONLY = .CRL)) :=
  claim_C7.1 "MIC-ONLY".data .MIC_ONLY

/-- Claim C8: a `DEK-Info` body whose hex part is present but empty
yields an empty parameter byte sequence rather than an error (stated for
every body whose comma is final, and at a concrete document), while the
invalid hex payload `ZZ` fails with an error value whose span is the hex
token. -/
theorem claim_C8 :
    (∀ body alg, splitAtComma body = some (alg, []) →
      parseDekInfoBody body = .ok ⟨alg, []⟩) ∧
    parsePem "-----BEGIN A-----\nProc-Type: 4,ENCRYPTED\nDEK-Info: DES-CBC,\n\nQUJD\n-----END A-----".data =
      .ok ⟨"A".data, ⟨some ⟨4, .ENCRYPTED⟩, none, some ⟨"DES-CBC".data, []⟩⟩, [65, 66, 67]⟩ ∧
    parsePem "-----BEGIN A-----\nProc-Type: 4,ENCRYPTED\nDEK-Info: DES-CBC,ZZ\n\nQUJD\n-----END A-----".data =
      .error ⟨"Invalid character".data, "ZZ".data⟩ := by
  refine ⟨?_, by decide, by decide⟩
  intro body alg hsplit
  simp [parseDekInfoBody, hsplit, hexDecode]

/-- Witness for C8: the body `DES-CBC,` has a present-but-empty hex part
and decodes to the empty parameter. -/
theorem claim_C8_witness :
    parseDekInfoBody "DES-CBC,".data = .ok ⟨"DES-CBC".data, []⟩ :=
  claim_C8.1 "DES-CBC,".data "DES-CBC".data (by decide)

/-- Claim C6: the rendered body is the base64 encoding of the content cut
into lines of 64 characters, each line newline-terminated; every line
before the last is exactly 64 characters; when the encoding length is not
a multiple of 64 the final line is shorter and carries exactly the
remainder; empty content yields an empty body region; and a block with no
content lines parses to empty content. -/
theorem claim_C6 :
    (∀ content : List Nat,
      bodyText content =
        (chunks64 (base64Encode content)).flatMap (fun l => l ++ ['\n']) ∧
      (∀ c ∈ (chunks64 (base64Encode content)).dropLast, c.length = 64) ∧
      ((base64Encode content).length % 64 ≠ 0 → ∃ lst,
        (chunks64 (base64Encode content)).getLast? = some lst ∧
        lst.length < 64 ∧ lst.length = (base64Encode content).length % 64)) ∧
    bodyText [] = [] ∧
    parsePem "-----BEGIN A-----\n-----END A-----".data = .ok ⟨"A".data, {}, []⟩ := by
  refine ⟨?_, by decide, by decide⟩
  intro content
  refine ⟨rfl, chunksF_dropLast_len _ _ le_rfl, ?_⟩
  intro hmod
  have hne : base64Encode content ≠ [] := by
    intro h
    exact hmod (by rw [h]; rfl)
  obtain ⟨lst, h1, h2⟩ := chunksF_getLast_len _ (base64Encode content) le_rfl hne
  rw [if_neg hmod] at h2
  exact ⟨lst, h1, by omega, h2⟩

/-- Claim C9: a document whose header block contains any of the extended
fields (with any newline-free body) is not rejected: the entry is
consumed and skipped, it does not populate the resulting header block,
and rendering the resulting message does not reproduce it. -/
theorem claim_C9 (name body : List Char) (hname : name ∈ extendedNames)
    (hbody : '\n' ∉ body) :
    parsePem (extDoc name body) =
      .ok ⟨"A".data, ⟨some ⟨4, .MIC_ONLY⟩, none, none⟩, [65, 66, 67]⟩ ∧
    PemMessage.render ⟨"A".data, ⟨some ⟨4, .MIC_ONLY⟩, none, none⟩, [65, 66, 67]⟩ =
      .ok "-----BEGIN A-----\nProc-Type: 4,MIC-ONLY\n\nQUJD\n-----END A-----".data := by
  refine ⟨?_, by decide⟩
  have hnn : '\n' ∉ name := by
    have hall : ∀ n ∈ extendedNames, '\n' ∉ n := by decide
    exact hall name hname
  have h3 : '\n' ∉ name ++ ':' :: body := by
    intro hmem
    rcases List.mem_append.mp hmem with hmem | hmem
    · exact hnn hmem
    · rcases List.mem_cons.mp hmem with hmem | hmem
      · exact absurd hmem (by decide)
      · exact hbody hmem
  have hsl : splitLines (extDoc name body) =
      ["-----BEGIN A-----".data, "Proc-Type: 4,MIC-ONLY".data, name ++ ':' :: body,
       [], "QUJD".data, "-----END A-----".data] := by
    unfold extDoc
    rw [splitLines_append _ _ (by decide), splitLines_append _ _ (by decide),
      splitLines_append _ _ h3, splitLines_append _ _ (by decide),
      splitLines_append _ _ (by decide), splitLines_single _ (by decide)]
  simp only [extendedNames, List.mem_cons, List.not_mem_nil, or_false] at hname
  unfold parsePem
  rw [hsl]
  rcases hname with rfl | rfl | rfl | rfl | rfl | rfl | rfl | rfl | rfl <;> rfl

/-- Counterexample to claim C1 as stated: the message with label `A`,
`content_domain` set but `proc_type` absent, and empty content has a
non-empty label and an absent `proc_type`, renders successfully, yet
parsing the rendered text yields a structurally different message — the
`content_domain` is lost because the header gating suppresses it. -/
theorem claim_C1_counterexample :
    PemMessage.render ⟨"A".data, ⟨none, some "RFC822".data, none⟩, []⟩ =
      .ok "-----BEGIN A-----\n-----END A-----".data ∧
    parsePem "-----BEGIN A-----\n-----END A-----".data =
      .ok ⟨"A".data, ⟨none, none, none⟩, []⟩ ∧
    (⟨"A".data, ⟨none, none, none⟩, []⟩ : PemMessage) ≠
      ⟨"A".data, ⟨none, some "RFC822".data, none⟩, []⟩ := by
  refine ⟨by decide, by decide, by decide⟩

/-- Claim C1 (amended): parse-after-render is the identity for every
message whose fields survive rendering: non-empty label with no newline
and no five-dash run (including at the boundary with the closing
dashes), a `proc_type` version within u32, all other header fields
absent when `proc_type` is absent, a newline-free `content_domain`, a
`DEK-Info` algorithm free of newlines and commas with parameter bytes,
and content bytes. -/
theorem claim_C1 (m : PemMessage)
    (hlabel_ne : m.label ≠ [])
    (hlabel_nl : '\n' ∉ m.label)
    (hlabel_dash : splitAtDashes (m.label ++ "-----".data) = some (m.label, []))
    (hver : ∀ pt, m.headers.proc_type = some pt → pt.version < 4294967296)
    (hgate : m.headers.proc_type = none →
      m.headers.content_domain = none ∧ m.headers.dek_info = none)
    (hcd : ∀ d, m.headers.content_domain = some d → '\n' ∉ d)
    (hdek : ∀ dk, m.headers.dek_info = some dk →
      '\n' ∉ dk.algorithm ∧ ',' ∉ dk.algorithm ∧ ∀ b ∈ dk.parameter, b < 256)
    (hcontent : ∀ b ∈ m.content, b < 256) :
    ∃ s, m.render = .ok s ∧ parsePem s = .ok m := by
  refine ⟨_, render_eq_lines m hlabel_ne, ?_⟩
  rw [parsePem, splitLines_flatMap _ _
      (msgLines_no_nl m hlabel_nl hcd fun dk hdk => (hdek dk hdk).1)
      (endLine_no_nl m.label hlabel_nl),
    dropTrailingBlank, List.getLast?_concat, if_neg (by simp [endLineOf]),
    msgLines, List.cons_append,
    parseEnvelope_cons _ _ _ (parseBeginLine_render m.label hlabel_ne hlabel_dash),
    parseAfterBegin_concat]
  obtain ⟨label, ⟨pt, cd, dk⟩, content⟩ := m
  dsimp only at hver hgate hcd hdek hcontent ⊢
  cases pt with
  | none =>
    obtain ⟨hcdn, hdkn⟩ := hgate rfl
    subst hcdn
    subst hdkn
    show parseMiddle label (chunks64 (base64Encode content)) =
      .ok ⟨label, ⟨none, none, none⟩, content⟩
    exact parseMiddle_eval label _ [] _ {} content
      (splitHeaderContent_content _ fun c0 crest heq =>
        isHeaderStart_no_colon c0 (chunkline_no_colon content c0
          (by rw [heq]; exact List.mem_cons_self _ _)))
      (if_pos rfl)
      (decodeContent_chunks content hcontent)
  | some pt =>
    rw [List.append_assoc]
    show parseMiddle label (PemHeader.renderLines ⟨some pt, cd, dk⟩ ++
      ([[]] ++ chunks64 (base64Encode content))) = .ok ⟨label, ⟨some pt, cd, dk⟩, content⟩
    rw [List.singleton_append]
    have hne : ∀ l ∈ PemHeader.renderLines ⟨some pt, cd, dk⟩, l ≠ [] := by
      intro l hl
      rcases List.mem_cons.mp hl with rfl | hl
      · exact ptline_ne_nil pt
      · rcases List.mem_append.mp hl with hl | hl
        · cases cd with
          | none => cases hl
          | some d =>
            rcases List.mem_singleton.mp hl with rfl
            exact cdline_ne_nil d
        · cases dk with
          | none => cases hl
          | some dkk =>
            rcases List.mem_singleton.mp hl with rfl
            exact dekline_ne_nil dkk
    refine parseMiddle_eval label _ (PemHeader.renderLines ⟨some pt, cd, dk⟩) _
      ⟨some pt, cd, dk⟩ content ?_ ?_ (decodeContent_chunks content hcontent)
    · exact splitHeaderContent_headers (ProcType.render pt)
        ((cd.map contentDomainRender).toList ++ (dk.map DEKInfo.render).toList)
        (chunks64 (base64Encode content)) hne (isHeaderStart_ptline pt)
    · rw [if_neg (by show ¬ProcType.render pt :: _ = []; simp)]
      exact parseHeaders_render pt cd dk (hver pt rfl) fun d hd => ((hdek d hd).2)

/-- Witness for the amended C1 at a concrete message exercising every
rendered field. -/
theorem claim_C1_witness :
    ∃ s, PemMessage.render ⟨"TEST LABEL".data,
        ⟨some ⟨4, .ENCRYPTED⟩, some "RFC822".data, some ⟨"DES-CBC".data, [248, 20]⟩⟩,
        [1, 2, 3, 255]⟩ = .ok s ∧
      parsePem s = .ok ⟨"TEST LABEL".data,
        ⟨some ⟨4, .ENCRYPTED⟩, some "RFC822".data, some ⟨"DES-CBC".data, [248, 20]⟩⟩,
        [1, 2, 3, 255]⟩ :=
  claim_C1 _ (by decide) (by decide) (by decide)
    (fun pt hpt => by cases hpt; decide)
    (fun h => Option.noConfusion h)
    (fun d hd => by cases hd; decide)
    (fun dk hdk => by cases hdk; refine ⟨by decide, by decide, by decide⟩)
    (by decide)

/-- Witness for C9: a document with a `Key-Info` entry parses, skipping
the entry, and the re-rendered text omits it. -/
theorem claim_C9_witness :
    parsePem (extDoc "Key-Info".data " DES-ECB,RSA-MD2,9FD3AAD2F2691B9A,".data) =
      .ok ⟨"A".data, ⟨some ⟨4, .MIC_ONLY⟩, none, none⟩, [65, 66, 67]⟩ ∧
    PemMessage.render ⟨"A".data, ⟨some ⟨4, .MIC_ONLY⟩, none, none⟩, [65, 66, 67]⟩ =
      .ok "-----BEGIN A-----\nProc-Type: 4,MIC-ONLY\n\nQUJD\n-----END A-----".data :=
  claim_C9 "Key-Info".data " DES-ECB,RSA-MD2,9FD3AAD2F2691B9A,".data (by decide) (by decide)

/-- Witness for C6 at 50 zero bytes (encoding length 68): the final line
has the remainder length 4, and the 64-character first line is full. -/
theorem claim_C6_witness :
    (∃ lst, (chunks64 (base64Encode (List.replicate 50 0))).getLast? = some lst ∧
      lst.length < 64 ∧ lst.length = (base64Encode (List.replicate 50 0)).length % 64) ∧
    (List.replicate 64 'A').length = 64 :=
  ⟨(claim_C6.1 (List.replicate 50 0)).2.2 (by decide),
   (claim_C6.1 (List.replicate 50 0)).2.1 (List.replicate 64 'A') (by decide)⟩

end EasyPem
